import Mathlib

/-!
# Recurrence extrapolation for the Kummer function 1F1

A shallow embedding of
`boost/math/special_functions/detail/hypergeometric_1f1_recurrence.hpp`.

The C++ code is a template over the numeric type `T`; the embedding is
polymorphic over `T` in the same way.  The coefficient families only use ring
operations, the propagation routines use division, and the drivers use the
order and the integer/fractional split.

A value held in a slot of the recurrence window (`first`, `second`, `third`)
is an `Option T`: `none` is a non-finite value (the infinity or NaN that a
division by zero leaves behind).  Every arithmetic operation on a non-finite
operand is non-finite again; the coefficients themselves are always finite,
being sums and products of the finite inputs.
-/

set_option linter.unusedVariables false

namespace Hyp1F1

/-! ## Coefficient families -/

/-- The functor `hypergeometric_1f1_recurrence_a_coefficients<T>`: constructed
from `(a, b, z)`, called at the step index `i`. -/
def hypergeometric_1f1_recurrence_a_coefficients {T : Type} [Ring T]
    (a b z : T) (i : ℤ) : T × T × T :=
  let ai : T := a + (i : T)
  let an : T := -ai
  let bn : T := (b - (2 * ai)) - z
  let cn : T := b - ai
  (an, bn, cn)

/-- The functor `hypergeometric_1f1_recurrence_b_coefficients<T>`. -/
def hypergeometric_1f1_recurrence_b_coefficients {T : Type} [Ring T]
    (a b z : T) (i : ℤ) : T × T × T :=
  let bi : T := b + (i : T)
  let an : T := z * (bi - a)
  let bn : T := bi * ((z + bi) - 1)
  let cn : T := bi * (bi - 1)
  (an, bn, cn)

/-- The functor `hypergeometric_1f1_recurrence_a_and_b_coefficients<T>`. -/
def hypergeometric_1f1_recurrence_a_and_b_coefficients {T : Type} [Ring T]
    (a b z : T) (i : ℤ) : T × T × T :=
  let ai : T := a + (i : T)
  let bi : T := b + (i : T)
  let an : T := ai * z
  let bn : T := bi * ((1 - bi) + z)
  let cn : T := bi * (1 - bi)
  (an, bn, cn)

/-! ## Arithmetic on window slots -/

/-- Product of a finite coefficient and a slot value. -/
def slotMul {T : Type} [Mul T] (c : T) (x : Option T) : Option T :=
  x.map (fun v => c * v)

/-- Difference of two slot values. -/
def slotSub {T : Type} [Sub T] (x y : Option T) : Option T :=
  match x, y with
  | some u, some v => some (u - v)
  | _, _ => none

/-- Quotient of a slot value by a finite coefficient; dividing by zero leaves
a non-finite value. -/
def slotDiv {T : Type} [Zero T] [Div T] [DecidableEq T] (x : Option T) (d : T) : Option T :=
  if d = 0 then none else x.map (fun v => v / d)

/-! ## Propagation -/

/-- The variables of a propagation loop: the two by-reference slots `first`
and `second` and the local `third`.  Two ghost fields record the walk so far,
oldest entry first: `visited` holds the step indices at which the coefficient
callable has been called and `divisors` the coefficients divided by. -/
structure Window (T : Type) where
  first : Option T
  second : Option T
  third : Option T
  visited : List ℤ
  divisors : List T

/-- The variables on entry to a propagation routine: `T third = 0`, nothing
visited yet. -/
def Window.enter {T : Type} [Zero T] (first second : Option T) : Window T :=
  { first := first, second := second, third := some 0, visited := [], divisors := [] }

/-- One iteration of the loop of `hypergeometric_1f1_recurrence_forward` at
the step index `k`. -/
def forward_body {T : Type} [Field T] [DecidableEq T]
    (get_coefs : ℤ → T × T × T) (k : ℤ) (w : Window T) : Window T :=
  let next := get_coefs k
  let third := slotDiv (slotSub (slotMul next.2.1 w.second) (slotMul next.2.2 w.first)) next.1
  -- swap(first, second); swap(second, third);
  { first := w.second, second := third, third := w.first,
    visited := w.visited ++ [k], divisors := w.divisors ++ [next.1] }

/-- The loop `for (k = 0; k < last_index; ++k)`, entered at `k`. -/
def forward_loop {T : Type} [Field T] [DecidableEq T]
    (get_coefs : ℤ → T × T × T) (last_index : ℤ) (k : ℤ) (w : Window T) : Window T :=
  if k < last_index then
    forward_loop get_coefs last_index (k + 1) (forward_body get_coefs k w)
  else w
termination_by (last_index - k).toNat
decreasing_by omega

/-- The variables of `hypergeometric_1f1_recurrence_forward` when it returns;
`first` and `second` are what the caller finds in its two by-reference
arguments. -/
def hypergeometric_1f1_recurrence_forward_window {T : Type} [Field T] [DecidableEq T]
    (get_coefs : ℤ → T × T × T) (last_index : ℤ) (first second : Option T) : Window T :=
  forward_loop get_coefs last_index 0 (Window.enter first second)

/-- The value returned by `hypergeometric_1f1_recurrence_forward`. -/
def hypergeometric_1f1_recurrence_forward {T : Type} [Field T] [DecidableEq T]
    (get_coefs : ℤ → T × T × T) (last_index : ℤ) (first second : Option T) : Option T :=
  (hypergeometric_1f1_recurrence_forward_window get_coefs last_index first second).first

/-- One iteration of the loop of `hypergeometric_1f1_recurrence_backward` at
the step index `k`. -/
def backward_body {T : Type} [Field T] [DecidableEq T]
    (get_coefs : ℤ → T × T × T) (k : ℤ) (w : Window T) : Window T :=
  let next := get_coefs k
  let third := slotDiv (slotSub (slotMul next.2.1 w.second) (slotMul next.1 w.first)) next.2.2
  -- swap(first, second); swap(second, third);
  { first := w.second, second := third, third := w.first,
    visited := w.visited ++ [k], divisors := w.divisors ++ [next.2.2] }

/-- The loop `for (k = 0; k > last_index; --k)`, entered at `k`. -/
def backward_loop {T : Type} [Field T] [DecidableEq T]
    (get_coefs : ℤ → T × T × T) (last_index : ℤ) (k : ℤ) (w : Window T) : Window T :=
  if k > last_index then
    backward_loop get_coefs last_index (k - 1) (backward_body get_coefs k w)
  else w
termination_by (k - last_index).toNat
decreasing_by omega

/-- The variables of `hypergeometric_1f1_recurrence_backward` when it
returns. -/
def hypergeometric_1f1_recurrence_backward_window {T : Type} [Field T] [DecidableEq T]
    (get_coefs : ℤ → T × T × T) (last_index : ℤ) (first second : Option T) : Window T :=
  backward_loop get_coefs last_index 0 (Window.enter first second)

/-- The value returned by `hypergeometric_1f1_recurrence_backward`. -/
def hypergeometric_1f1_recurrence_backward {T : Type} [Field T] [DecidableEq T]
    (get_coefs : ℤ → T × T × T) (last_index : ℤ) (first second : Option T) : Option T :=
  (hypergeometric_1f1_recurrence_backward_window get_coefs last_index first second).first

/-! ## Numeric primitives -/

/-- Modelled from the spec: `boost::math::modf(v, &ipart)` of
`boost/math/special_functions/modf.hpp`, the "integer/fractional split of a
real value".  The integer part is the truncation toward zero (the floor of a
non-negative value, the ceiling of a negative one), taken as an unbounded
integer; the function returns the pair (fractional remainder, integer
part). -/
def modf {T : Type} [LinearOrderedField T] [FloorRing T] (v : T) : T × ℤ :=
  let ipart : ℤ := if 0 ≤ v then ⌊v⌋ else ⌈v⌉
  (v - (ipart : T), ipart)

/-- The numeric primitives of the closeness test, which exist for a
floating-point type only and are taken as given: `frexp_exp x` is the binary
exponent that `frexp(x, &e)` stores and `float_distance x y` is the signed
count of representable values between `x` and `y`
(`boost/math/special_functions/next.hpp`). -/
structure FloatPrimitives (T : Type) where
  frexp_exp : T → ℤ
  float_distance : T → T → T

/-- A sample of the primitives over the rationals, for concrete inputs: every
binary exponent is `0` and the distance is the plain difference, so that
equal fractional parts pass the closeness test (their distance is `0`). -/
def sample_primitives : FloatPrimitives ℚ :=
  { frexp_exp := fun _ => 0, float_distance := fun x y => y - x }

/-! ## Drivers -/

/-- The driver `hypergeometric_1f1_backward_recurrence_for_negative_a`, with
the base evaluator `hypergeometric_1f1_imp` passed as `E` (the policy argument
is only handed on to it).  This is the body of the driver up to its final
call, whose variables on return it yields. -/
def hypergeometric_1f1_backward_recurrence_for_negative_a_window {T : Type}
    [LinearOrderedField T] [FloorRing T]
    (P : FloatPrimitives T) (E : T → T → T → T) (a b z : T) : Window T :=
  let integer_part : ℤ := 0
  let (bk, integer_part) := modf b
  let (ak, integer_part) := modf a
  let exp_of_a : ℤ := P.frexp_exp a
  let exp_of_b : ℤ := P.frexp_exp b
  let are_fractional_parts_close_enough : Bool :=
    decide (|P.float_distance ak bk| ≤ (2 : T) ^ (max exp_of_a exp_of_b))
  let (ak, integer_part) :=
    if (a < b) && (b < 0) && are_fractional_parts_close_enough then
      (b - 1, integer_part - (⌈b⌉ - 1))
    else (ak, integer_part)
  let first := E ak b z
  let ak := ak - 1
  let second := E ak b z
  let s := hypergeometric_1f1_recurrence_a_coefficients ak b z
  hypergeometric_1f1_recurrence_backward_window s integer_part (some first) (some second)

/-- The value returned by `hypergeometric_1f1_backward_recurrence_for_negative_a`. -/
def hypergeometric_1f1_backward_recurrence_for_negative_a {T : Type}
    [LinearOrderedField T] [FloorRing T]
    (P : FloatPrimitives T) (E : T → T → T → T) (a b z : T) : Option T :=
  (hypergeometric_1f1_backward_recurrence_for_negative_a_window P E a b z).first

/-- The local `are_fractional_parts_close_enough` of
`hypergeometric_1f1_backward_recurrence_for_negative_a`: the closeness test on
the fractional parts of `a` and `b`. -/
def are_fractional_parts_close_enough {T : Type} [LinearOrderedField T] [FloorRing T]
    (P : FloatPrimitives T) (a b : T) : Bool :=
  let integer_part : ℤ := 0
  let (bk, integer_part) := modf b
  let (ak, integer_part) := modf a
  let exp_of_a : ℤ := P.frexp_exp a
  let exp_of_b : ℤ := P.frexp_exp b
  decide (|P.float_distance ak bk| ≤ (2 : T) ^ (max exp_of_a exp_of_b))

/-- The locals `ak` and `integer_part` of
`hypergeometric_1f1_backward_recurrence_for_negative_a` after its `if`
statement, that is where the first seed is taken: the anchored `ak` and the
step target. -/
def hypergeometric_1f1_backward_recurrence_for_negative_a_anchor {T : Type}
    [LinearOrderedField T] [FloorRing T] (P : FloatPrimitives T) (a b : T) : T × ℤ :=
  let integer_part : ℤ := 0
  let (bk, integer_part) := modf b
  let (ak, integer_part) := modf a
  let exp_of_a : ℤ := P.frexp_exp a
  let exp_of_b : ℤ := P.frexp_exp b
  let are_fractional_parts_close_enough : Bool :=
    decide (|P.float_distance ak bk| ≤ (2 : T) ^ (max exp_of_a exp_of_b))
  if (a < b) && (b < 0) && are_fractional_parts_close_enough then
    (b - 1, integer_part - (⌈b⌉ - 1))
  else (ak, integer_part)

/-- The driver `hypergeometric_1f1_forward_recurrence_for_positive_a`: its
body up to the final call, whose variables on return it yields. -/
def hypergeometric_1f1_forward_recurrence_for_positive_a_window {T : Type}
    [LinearOrderedField T] [FloorRing T]
    (E : T → T → T → T) (a b z : T) : Window T :=
  let integer_part : ℤ := 0
  let (ak, integer_part) := modf a
  let first := E ak b z
  let ak := ak + 1
  let second := E ak b z
  let s := hypergeometric_1f1_recurrence_a_coefficients ak b z
  hypergeometric_1f1_recurrence_forward_window s integer_part (some first) (some second)

/-- The value returned by `hypergeometric_1f1_forward_recurrence_for_positive_a`. -/
def hypergeometric_1f1_forward_recurrence_for_positive_a {T : Type}
    [LinearOrderedField T] [FloorRing T]
    (E : T → T → T → T) (a b z : T) : Option T :=
  (hypergeometric_1f1_forward_recurrence_for_positive_a_window E a b z).first

/-- The driver `hypergeometric_1f1_backward_recurrence_for_negative_b`: its
body up to the final call, whose variables on return it yields. -/
def hypergeometric_1f1_backward_recurrence_for_negative_b_window {T : Type}
    [LinearOrderedField T] [FloorRing T]
    (E : T → T → T → T) (a b z : T) : Window T :=
  let integer_part : ℤ := 0
  let (bk, integer_part) := modf b
  let first := E a bk z
  let bk := bk - 1
  let second := E a bk z
  let s := hypergeometric_1f1_recurrence_b_coefficients a bk z
  hypergeometric_1f1_recurrence_backward_window s integer_part (some first) (some second)

/-- The value returned by `hypergeometric_1f1_backward_recurrence_for_negative_b`. -/
def hypergeometric_1f1_backward_recurrence_for_negative_b {T : Type}
    [LinearOrderedField T] [FloorRing T]
    (E : T → T → T → T) (a b z : T) : Option T :=
  (hypergeometric_1f1_backward_recurrence_for_negative_b_window E a b z).first

/-- The driver `hypergeometric_1f1_backward_recurrence_for_negative_a_and_b`:
its body up to the final call, whose variables on return it yields.  The code
does not check that the integer parts of `a` and `b` agree, and the shared
accumulator ends up holding the integer part of `b`. -/
def hypergeometric_1f1_backward_recurrence_for_negative_a_and_b_window {T : Type}
    [LinearOrderedField T] [FloorRing T]
    (E : T → T → T → T) (a b z : T) : Window T :=
  let integer_part : ℤ := 0
  let (ak, integer_part) := modf a
  let (bk, integer_part) := modf b
  let first := E ak bk z
  let ak := ak - 1
  let bk := bk - 1
  let second := E ak bk z
  let s := hypergeometric_1f1_recurrence_a_and_b_coefficients ak bk z
  hypergeometric_1f1_recurrence_backward_window s integer_part (some first) (some second)

/-- The value returned by `hypergeometric_1f1_backward_recurrence_for_negative_a_and_b`. -/
def hypergeometric_1f1_backward_recurrence_for_negative_a_and_b {T : Type}
    [LinearOrderedField T] [FloorRing T]
    (E : T → T → T → T) (a b z : T) : Option T :=
  (hypergeometric_1f1_backward_recurrence_for_negative_a_and_b_window E a b z).first

/-! ## Drivers with the calls of the base evaluator recorded -/

/-- A call `hypergeometric_1f1_imp(x, y, z, pol)` of the base evaluator, passed
as `E`, together with the ghost list of the points at which the evaluator has
been called so far, oldest first. -/
def logged_call {T : Type} (E : T → T → T → T) (x y z : T) (log : List (T × T × T)) :
    T × List (T × T × T) :=
  (E x y z, log ++ [(x, y, z)])

/-- The driver `hypergeometric_1f1_backward_recurrence_for_negative_a` with its
calls of the base evaluator recorded: the variables of its final call on
return and the list of the points at which it has called the evaluator. -/
def hypergeometric_1f1_backward_recurrence_for_negative_a_logged {T : Type}
    [LinearOrderedField T] [FloorRing T]
    (P : FloatPrimitives T) (E : T → T → T → T) (a b z : T) : Window T × List (T × T × T) :=
  let log : List (T × T × T) := []
  let integer_part : ℤ := 0
  let (bk, integer_part) := modf b
  let (ak, integer_part) := modf a
  let exp_of_a : ℤ := P.frexp_exp a
  let exp_of_b : ℤ := P.frexp_exp b
  let are_fractional_parts_close_enough : Bool :=
    decide (|P.float_distance ak bk| ≤ (2 : T) ^ (max exp_of_a exp_of_b))
  let (ak, integer_part) :=
    if (a < b) && (b < 0) && are_fractional_parts_close_enough then
      (b - 1, integer_part - (⌈b⌉ - 1))
    else (ak, integer_part)
  let (first, log) := logged_call E ak b z log
  let ak := ak - 1
  let (second, log) := logged_call E ak b z log
  let s := hypergeometric_1f1_recurrence_a_coefficients ak b z
  (hypergeometric_1f1_recurrence_backward_window s integer_part (some first) (some second), log)

/-- The driver `hypergeometric_1f1_forward_recurrence_for_positive_a` with its
calls of the base evaluator recorded. -/
def hypergeometric_1f1_forward_recurrence_for_positive_a_logged {T : Type}
    [LinearOrderedField T] [FloorRing T]
    (E : T → T → T → T) (a b z : T) : Window T × List (T × T × T) :=
  let log : List (T × T × T) := []
  let integer_part : ℤ := 0
  let (ak, integer_part) := modf a
  let (first, log) := logged_call E ak b z log
  let ak := ak + 1
  let (second, log) := logged_call E ak b z log
  let s := hypergeometric_1f1_recurrence_a_coefficients ak b z
  (hypergeometric_1f1_recurrence_forward_window s integer_part (some first) (some second), log)

/-- The driver `hypergeometric_1f1_backward_recurrence_for_negative_b` with its
calls of the base evaluator recorded. -/
def hypergeometric_1f1_backward_recurrence_for_negative_b_logged {T : Type}
    [LinearOrderedField T] [FloorRing T]
    (E : T → T → T → T) (a b z : T) : Window T × List (T × T × T) :=
  let log : List (T × T × T) := []
  let integer_part : ℤ := 0
  let (bk, integer_part) := modf b
  let (first, log) := logged_call E a bk z log
  let bk := bk - 1
  let (second, log) := logged_call E a bk z log
  let s := hypergeometric_1f1_recurrence_b_coefficients a bk z
  (hypergeometric_1f1_recurrence_backward_window s integer_part (some first) (some second), log)

/-- The driver `hypergeometric_1f1_backward_recurrence_for_negative_a_and_b`
with its calls of the base evaluator recorded. -/
def hypergeometric_1f1_backward_recurrence_for_negative_a_and_b_logged {T : Type}
    [LinearOrderedField T] [FloorRing T]
    (E : T → T → T → T) (a b z : T) : Window T × List (T × T × T) :=
  let log : List (T × T × T) := []
  let integer_part : ℤ := 0
  let (ak, integer_part) := modf a
  let (bk, integer_part) := modf b
  let (first, log) := logged_call E ak bk z log
  let ak := ak - 1
  let bk := bk - 1
  let (second, log) := logged_call E ak bk z log
  let s := hypergeometric_1f1_recurrence_a_and_b_coefficients ak bk z
  (hypergeometric_1f1_recurrence_backward_window s integer_part (some first) (some second), log)

/-- The predicate `hypergeometric_1f1_is_a_small_enough`. -/
def hypergeometric_1f1_is_a_small_enough {T : Type} [LinearOrderedField T] (a : T) : Bool :=
  decide (a < -10)

/-! ## The sequences the propagation routines are specified by -/

/-- The sequence of the forward contract: `y 0 = first`, `y 1 = second` and
`y (k+2) = (middle_k * y (k+1) - trailing_k * y k) / leading_k`, where
`(leading_k, middle_k, trailing_k)` is the triple of the callable at `k`. -/
def forward_sequence {T : Type} [Field T] [DecidableEq T]
    (c : ℤ → T × T × T) (first second : Option T) : ℕ → Option T
  | 0 => first
  | 1 => second
  | (k + 2) =>
    slotDiv (slotSub (slotMul (c (k : ℤ)).2.1 (forward_sequence c first second (k + 1)))
      (slotMul (c (k : ℤ)).2.2 (forward_sequence c first second k))) (c (k : ℤ)).1

/-- The sequence of the backward contract: `w 0 = first`, `w 1 = second` and
`w (j+2) = (middle * w (j+1) - leading * w j) / trailing`, where
`(leading, middle, trailing)` is the triple of the callable at `-j`. -/
def backward_sequence {T : Type} [Field T] [DecidableEq T]
    (c : ℤ → T × T × T) (first second : Option T) : ℕ → Option T
  | 0 => first
  | 1 => second
  | (j + 2) =>
    slotDiv (slotSub (slotMul (c (-(j : ℤ))).2.1 (backward_sequence c first second (j + 1)))
      (slotMul (c (-(j : ℤ))).1 (backward_sequence c first second j))) (c (-(j : ℤ))).2.2

/-- The finite values of the forward recurrence when no leading coefficient
vanishes: `forward_sequence` with the division of the field. -/
def forward_values {T : Type} [Field T]
    (c : ℤ → T × T × T) (first second : T) : ℕ → T
  | 0 => first
  | 1 => second
  | (k + 2) =>
    ((c (k : ℤ)).2.1 * forward_values c first second (k + 1)
      - (c (k : ℤ)).2.2 * forward_values c first second k) / (c (k : ℤ)).1

/-! ## The Kummer series -/

/-- The rising factorial `(x)_n = x (x+1) ... (x+n-1)`. -/
def rising {K : Type} [Semiring K] (x : K) : ℕ → K
  | 0 => 1
  | (n + 1) => rising x n * (x + (n : K))

/-- The coefficient of `z^n` in the Kummer series:
`(a)_n / ((b)_n n!)`. -/
def kummer_coeff {K : Type} [Field K] (a b : K) (n : ℕ) : K :=
  rising a n / (rising b n * (n.factorial : K))

/-- The Kummer series `M(a, b; z)`, the sum over `n` of
`(a)_n z^n / ((b)_n n!)`, as a formal power series in `z`. -/
def kummer_series {K : Type} [Field K] (a b : K) : PowerSeries K :=
  PowerSeries.mk (kummer_coeff a b)

/-! ## Unfolding the loops -/

section Loops

variable {T : Type} [Field T] [DecidableEq T]

/-- The window after `m` forward iterations entered at `k`. -/
def forward_iter (c : ℤ → T × T × T) (k : ℤ) : ℕ → Window T → Window T
  | 0, w => w
  | (m + 1), w => forward_iter c (k + 1) m (forward_body c k w)

/-- The window after `m` backward iterations entered at `k`. -/
def backward_iter (c : ℤ → T × T × T) (k : ℤ) : ℕ → Window T → Window T
  | 0, w => w
  | (m + 1), w => backward_iter c (k - 1) m (backward_body c k w)

theorem forward_loop_eq_iter (c : ℤ → T × T × T) (L : ℤ) :
    ∀ (m : ℕ) (k : ℤ) (w : Window T), (L - k).toNat = m →
      forward_loop c L k w = forward_iter c k m w := by
  intro m
  induction m with
  | zero =>
    intro k w h
    rw [forward_loop, if_neg (by omega)]
    rfl
  | succ m ih =>
    intro k w h
    rw [forward_loop, if_pos (by omega), ih (k + 1) _ (by omega)]
    rfl

theorem backward_loop_eq_iter (c : ℤ → T × T × T) (L : ℤ) :
    ∀ (m : ℕ) (k : ℤ) (w : Window T), (k - L).toNat = m →
      backward_loop c L k w = backward_iter c k m w := by
  intro m
  induction m with
  | zero =>
    intro k w h
    rw [backward_loop, if_neg (by omega)]
    rfl
  | succ m ih =>
    intro k w h
    rw [backward_loop, if_pos (by omega), ih (k - 1) _ (by omega)]
    rfl

theorem forward_iter_succ (c : ℤ → T × T × T) :
    ∀ (m : ℕ) (k : ℤ) (w : Window T),
      forward_iter c k (m + 1) w = forward_body c (k + m) (forward_iter c k m w) := by
  intro m
  induction m with
  | zero => intro k w; simp [forward_iter]
  | succ m ih =>
    intro k w
    have h := ih (k + 1) (forward_body c k w)
    have e : k + 1 + (m : ℤ) = k + ((m + 1 : ℕ) : ℤ) := by push_cast; ring
    rw [e] at h
    exact h

theorem backward_iter_succ (c : ℤ → T × T × T) :
    ∀ (m : ℕ) (k : ℤ) (w : Window T),
      backward_iter c k (m + 1) w = backward_body c (k - m) (backward_iter c k m w) := by
  intro m
  induction m with
  | zero => intro k w; simp [backward_iter]
  | succ m ih =>
    intro k w
    have h := ih (k - 1) (backward_body c k w)
    have e : k - 1 - (m : ℤ) = k - ((m + 1 : ℕ) : ℤ) := by push_cast; ring
    rw [e] at h
    exact h

theorem forward_window_eq_iter (c : ℤ → T × T × T) (n : ℕ) (first second : Option T) :
    hypergeometric_1f1_recurrence_forward_window c (n : ℤ) first second
      = forward_iter c 0 n (Window.enter first second) := by
  unfold hypergeometric_1f1_recurrence_forward_window
  exact forward_loop_eq_iter c n n 0 _ (by omega)

theorem backward_window_eq_iter (c : ℤ → T × T × T) (n : ℕ) (first second : Option T) :
    hypergeometric_1f1_recurrence_backward_window c (-(n : ℤ)) first second
      = backward_iter c 0 n (Window.enter first second) := by
  unfold hypergeometric_1f1_recurrence_backward_window
  exact backward_loop_eq_iter c (-(n : ℤ)) n 0 _ (by omega)

theorem forward_iter_sequence (c : ℤ → T × T × T) (first second : Option T) (n : ℕ) :
    (forward_iter c 0 n (Window.enter first second)).first = forward_sequence c first second n
    ∧ (forward_iter c 0 n (Window.enter first second)).second
        = forward_sequence c first second (n + 1) := by
  induction n with
  | zero => exact ⟨rfl, rfl⟩
  | succ n ih =>
    rw [forward_iter_succ]
    obtain ⟨h1, h2⟩ := ih
    refine ⟨?_, ?_⟩
    · simp only [forward_body]; exact h2
    · simp only [forward_body, forward_sequence, h1, h2, zero_add]

theorem backward_iter_sequence (c : ℤ → T × T × T) (first second : Option T) (n : ℕ) :
    (backward_iter c 0 n (Window.enter first second)).first = backward_sequence c first second n
    ∧ (backward_iter c 0 n (Window.enter first second)).second
        = backward_sequence c first second (n + 1) := by
  induction n with
  | zero => exact ⟨rfl, rfl⟩
  | succ n ih =>
    rw [backward_iter_succ]
    obtain ⟨h1, h2⟩ := ih
    refine ⟨?_, ?_⟩
    · simp only [backward_body]; exact h2
    · simp only [backward_body, backward_sequence, h1, h2, zero_sub]

theorem forward_iter_visited (c : ℤ → T × T × T) (w : Window T) (n : ℕ) :
    (forward_iter c 0 n w).visited
      = w.visited ++ (List.range n).map (fun j : ℕ => (j : ℤ)) := by
  induction n with
  | zero => simp [forward_iter]
  | succ n ih =>
    rw [forward_iter_succ]
    simp [forward_body, ih, List.range_succ]

theorem backward_iter_visited (c : ℤ → T × T × T) (w : Window T) (n : ℕ) :
    (backward_iter c 0 n w).visited
      = w.visited ++ (List.range n).map (fun j : ℕ => -(j : ℤ)) := by
  induction n with
  | zero => simp [backward_iter]
  | succ n ih =>
    rw [backward_iter_succ]
    simp [backward_body, ih, List.range_succ]

theorem forward_iter_divisors (c : ℤ → T × T × T) (w : Window T) (n : ℕ) :
    (forward_iter c 0 n w).divisors
      = w.divisors ++ (List.range n).map (fun j : ℕ => (c (j : ℤ)).1) := by
  induction n with
  | zero => simp [forward_iter]
  | succ n ih =>
    rw [forward_iter_succ]
    simp [forward_body, ih, List.range_succ]

theorem backward_iter_divisors (c : ℤ → T × T × T) (w : Window T) (n : ℕ) :
    (backward_iter c 0 n w).divisors
      = w.divisors ++ (List.range n).map (fun j : ℕ => (c (-(j : ℤ))).2.2) := by
  induction n with
  | zero => simp [backward_iter]
  | succ n ih =>
    rw [backward_iter_succ]
    simp [backward_body, ih, List.range_succ]

/-- Forward walk along values `f 0, f 1, ...` that satisfy the recurrence of the
callable with non-zero leading coefficients: after `n` iterations the window
holds `f n` and `f (n+1)`. -/
theorem forward_iter_values (c : ℤ → T × T × T) (f : ℕ → T) (n : ℕ) (w : Window T)
    (h1 : w.first = some (f 0)) (h2 : w.second = some (f 1))
    (hstep : ∀ j : ℕ, j < n → (c (j : ℤ)).1 ≠ 0 ∧
      (c (j : ℤ)).1 * f (j + 2) = (c (j : ℤ)).2.1 * f (j + 1) - (c (j : ℤ)).2.2 * f j) :
    (forward_iter c 0 n w).first = some (f n)
    ∧ (forward_iter c 0 n w).second = some (f (n + 1)) := by
  induction n with
  | zero => exact ⟨h1, h2⟩
  | succ n ih =>
    obtain ⟨e1, e2⟩ := ih (fun j hj => hstep j (Nat.lt_succ_of_lt hj))
    obtain ⟨hne, hrel⟩ := hstep n (Nat.lt_succ_self n)
    rw [forward_iter_succ]
    refine ⟨?_, ?_⟩
    · simp only [forward_body]; exact e2
    · simp only [forward_body, zero_add, e1, e2, slotMul, slotSub, slotDiv, Option.map_some',
        if_neg hne]
      congr 1
      rw [← hrel, mul_div_cancel_left₀ _ hne]

/-- Backward walk along values `f 0, f 1, ...` that satisfy the recurrence of the
callable with non-zero trailing coefficients: after `n` iterations the window
holds `f n` and `f (n+1)`. -/
theorem backward_iter_values (c : ℤ → T × T × T) (f : ℕ → T) (n : ℕ) (w : Window T)
    (h1 : w.first = some (f 0)) (h2 : w.second = some (f 1))
    (hstep : ∀ j : ℕ, j < n → (c (-(j : ℤ))).2.2 ≠ 0 ∧
      (c (-(j : ℤ))).2.2 * f (j + 2)
        = (c (-(j : ℤ))).2.1 * f (j + 1) - (c (-(j : ℤ))).1 * f j) :
    (backward_iter c 0 n w).first = some (f n)
    ∧ (backward_iter c 0 n w).second = some (f (n + 1)) := by
  induction n with
  | zero => exact ⟨h1, h2⟩
  | succ n ih =>
    obtain ⟨e1, e2⟩ := ih (fun j hj => hstep j (Nat.lt_succ_of_lt hj))
    obtain ⟨hne, hrel⟩ := hstep n (Nat.lt_succ_self n)
    rw [backward_iter_succ]
    refine ⟨?_, ?_⟩
    · simp only [backward_body]; exact e2
    · simp only [backward_body, zero_sub, e1, e2, slotMul, slotSub, slotDiv, Option.map_some',
        if_neg hne]
      congr 1
      rw [← hrel, mul_div_cancel_left₀ _ hne]

/-- The forward iterations only consult the callable at the indices they
visit. -/
theorem forward_iter_congr (c1 c2 : ℤ → T × T × T) (w : Window T) (n : ℕ)
    (h : ∀ j : ℕ, j < n → c1 (j : ℤ) = c2 (j : ℤ)) :
    forward_iter c1 0 n w = forward_iter c2 0 n w := by
  induction n with
  | zero => rfl
  | succ n ih =>
    rw [forward_iter_succ, forward_iter_succ, ih (fun j hj => h j (Nat.lt_succ_of_lt hj))]
    simp only [forward_body, zero_add, h n (Nat.lt_succ_self n)]

/-- The backward iterations only consult the callable at the indices they
visit. -/
theorem backward_iter_congr (c1 c2 : ℤ → T × T × T) (w : Window T) (n : ℕ)
    (h : ∀ j : ℕ, j < n → c1 (-(j : ℤ)) = c2 (-(j : ℤ))) :
    backward_iter c1 0 n w = backward_iter c2 0 n w := by
  induction n with
  | zero => rfl
  | succ n ih =>
    rw [backward_iter_succ, backward_iter_succ, ih (fun j hj => h j (Nat.lt_succ_of_lt hj))]
    simp only [backward_body, zero_sub, h n (Nat.lt_succ_self n)]

end Loops

/-! ## The integer/fractional split -/

section Split

variable {T : Type} [LinearOrderedField T] [FloorRing T]

theorem modf_of_nonneg (v : T) (h : 0 ≤ v) : modf v = (v - (⌊v⌋ : T), ⌊v⌋) := by
  simp [modf, h]

theorem modf_of_nonpos (v : T) (h : v ≤ 0) : modf v = (v - (⌈v⌉ : T), ⌈v⌉) := by
  rcases eq_or_lt_of_le h with h0 | hlt
  · subst h0; simp [modf]
  · simp [modf, not_le.2 hlt]

theorem modf_snd_nonpos_frac (v : T) (h : (modf v).2 < 0) : (modf v).1 ≤ 0 := by
  by_cases hv : 0 ≤ v
  · rw [modf_of_nonneg v hv] at h
    have := Int.floor_nonneg.2 hv
    simp only at h
    omega
  · rw [modf_of_nonpos v (le_of_lt (not_le.1 hv))]
    have := Int.le_ceil v
    simp only
    linarith

end Split

/-! ## Rising factorials and Kummer coefficients -/

section Kummer

variable {K : Type} [Field K]

theorem rising_succ_left (x : K) (n : ℕ) : rising x (n + 1) = x * rising (x + 1) n := by
  induction n with
  | zero => simp [rising]
  | succ n ih =>
    rw [rising, ih]
    simp only [rising]
    push_cast
    ring

theorem rising_ne_zero (x : K) (hx : ∀ m : ℕ, x ≠ -(m : K)) (n : ℕ) : rising x n ≠ 0 := by
  induction n with
  | zero => simp [rising]
  | succ n ih =>
    rw [rising]
    refine mul_ne_zero ih ?_
    intro h
    exact hx n (by linear_combination h)

theorem kummer_coeff_zero (a b : K) : kummer_coeff a b 0 = 1 := by
  simp [kummer_coeff, rising]

theorem kummer_coeff_succ (a b : K) (m : ℕ) :
    kummer_coeff a b (m + 1)
      = rising a m * (a + (m : K))
        / (rising b m * (b + (m : K)) * (((m : K) + 1) * (m.factorial : K))) := by
  simp only [kummer_coeff, rising, Nat.factorial_succ]
  push_cast
  rfl

theorem kummer_coeff_succ_up (a b : K) (m : ℕ) :
    a * kummer_coeff (a + 1) b (m + 1)
      = rising a m * (a + (m : K)) * (a + (m : K) + 1)
        / (rising b m * (b + (m : K)) * (((m : K) + 1) * (m.factorial : K))) := by
  have e : a * rising (a + 1) (m + 1) = rising a m * (a + (m : K)) * (a + (m : K) + 1) := by
    rw [← rising_succ_left]; simp only [rising]; push_cast; ring
  rw [← e]
  simp only [kummer_coeff, rising, Nat.factorial_succ]
  push_cast
  ring

theorem kummer_coeff_succ_down (a b : K) (m : ℕ) :
    kummer_coeff (a - 1) b (m + 1)
      = (a - 1) * rising a m
        / (rising b m * (b + (m : K)) * (((m : K) + 1) * (m.factorial : K))) := by
  have e : rising (a - 1) (m + 1) = (a - 1) * rising a m := by
    rw [rising_succ_left]; congr 2; ring
  rw [← e]
  simp only [kummer_coeff, rising, Nat.factorial_succ]
  push_cast
  rfl

/-- The relation between the coefficients of `z^(m+1)` in `M(a+1)`, `M(a)`,
`M(a-1)` and of `z^m` in `M(a)`, over the common denominator. -/
theorem kummer_a_identity (A b R B F M : K) (hB : B ≠ 0) (hbM : b + M ≠ 0) (hF : F ≠ 0)
    (hM : M + 1 ≠ 0) :
    -(R * (A + M) * (A + M + 1) / (B * (b + M) * ((M + 1) * F)))
      = b * (R * (A + M) / (B * (b + M) * ((M + 1) * F)))
          - 2 * A * (R * (A + M) / (B * (b + M) * ((M + 1) * F)))
          - R / (B * F)
        - (b * ((A - 1) * R / (B * (b + M) * ((M + 1) * F)))
          - A * ((A - 1) * R / (B * (b + M) * ((M + 1) * F)))) := by
  have h4 : R / (B * F) = R * (b + M) * (M + 1) / (B * (b + M) * ((M + 1) * F)) := by
    rw [div_eq_div_iff (mul_ne_zero hB hF)
      (mul_ne_zero (mul_ne_zero hB hbM) (mul_ne_zero hM hF))]
    ring
  rw [h4]
  ring

theorem rising_shift_down (x : K) (m : ℕ) : rising (x - 1) (m + 1) = (x - 1) * rising x m := by
  rw [rising_succ_left]; congr 2; ring

theorem rising_shift_up (x : K) (hx : x ≠ 0) (m : ℕ) :
    rising (x + 1) m = rising x m * (x + (m : K)) / x := by
  rw [eq_div_iff hx, mul_comm, ← rising_succ_left]
  rfl

/-- The relation between the coefficients of `z^(m+1)` in `M(b-1)`, `M(b)`
and of `z^m` in `M(b)`, `M(b+1)`, over the common denominator. -/
theorem kummer_b_identity (a B R Q F M : K) (hB : B ≠ 0) (hB1 : B - 1 ≠ 0) (hQ : Q ≠ 0)
    (hBM : B + M ≠ 0) (hF : F ≠ 0) (hM : M + 1 ≠ 0) :
    B * (B - 1) * (R * (a + M) / ((B - 1) * Q * ((M + 1) * F)))
      = B * (B - 1) * (R * (a + M) / (Q * (B + M) * ((M + 1) * F)))
        + B * (R / (Q * F))
        - (B * (R / (Q * (B + M) / B * F)) - a * (R / (Q * (B + M) / B * F))) := by
  have hD : (B - 1) * Q * (B + M) * ((M + 1) * F) ≠ 0 :=
    mul_ne_zero (mul_ne_zero (mul_ne_zero hB1 hQ) hBM) (mul_ne_zero hM hF)
  have h1 : R * (a + M) / ((B - 1) * Q * ((M + 1) * F))
      = R * (a + M) * (B + M) / ((B - 1) * Q * (B + M) * ((M + 1) * F)) := by
    rw [div_eq_div_iff (mul_ne_zero (mul_ne_zero hB1 hQ) (mul_ne_zero hM hF)) hD]; ring
  have h2 : R * (a + M) / (Q * (B + M) * ((M + 1) * F))
      = R * (a + M) * (B - 1) / ((B - 1) * Q * (B + M) * ((M + 1) * F)) := by
    rw [div_eq_div_iff (mul_ne_zero (mul_ne_zero hQ hBM) (mul_ne_zero hM hF)) hD]; ring
  have h3 : R / (Q * F)
      = R * (B - 1) * (B + M) * (M + 1) / ((B - 1) * Q * (B + M) * ((M + 1) * F)) := by
    rw [div_eq_div_iff (mul_ne_zero hQ hF) hD]; ring
  have h4 : R / (Q * (B + M) / B * F)
      = R * B * (B - 1) * (M + 1) / ((B - 1) * Q * (B + M) * ((M + 1) * F)) := by
    rw [div_eq_div_iff (mul_ne_zero (div_ne_zero (mul_ne_zero hQ hBM) hB) hF) hD]
    field_simp
    ring
  rw [h1, h2, h3, h4]
  ring

/-- The relation between the coefficients of `z^(m+1)` in `M(a-1, b-1)`,
`M(a, b)` and of `z^m` in `M(a, b)`, `M(a+1, b+1)`, over the common
denominator. -/
theorem kummer_ab_identity (A B R Q F M : K) (hB : B ≠ 0) (hB1 : B - 1 ≠ 0) (hQ : Q ≠ 0)
    (hBM : B + M ≠ 0) (hF : F ≠ 0) (hM : M + 1 ≠ 0) :
    B * (1 - B) * ((A - 1) * R / ((B - 1) * Q * ((M + 1) * F)))
      = B * (1 - B) * (R * (A + M) / (Q * (B + M) * ((M + 1) * F)))
        + B * (R / (Q * F))
        - R * (A + M) / (Q * (B + M) / B * F) := by
  have hD : (B - 1) * Q * (B + M) * ((M + 1) * F) ≠ 0 :=
    mul_ne_zero (mul_ne_zero (mul_ne_zero hB1 hQ) hBM) (mul_ne_zero hM hF)
  have h1 : (A - 1) * R / ((B - 1) * Q * ((M + 1) * F))
      = (A - 1) * R * (B + M) / ((B - 1) * Q * (B + M) * ((M + 1) * F)) := by
    rw [div_eq_div_iff (mul_ne_zero (mul_ne_zero hB1 hQ) (mul_ne_zero hM hF)) hD]; ring
  have h2 : R * (A + M) / (Q * (B + M) * ((M + 1) * F))
      = R * (A + M) * (B - 1) / ((B - 1) * Q * (B + M) * ((M + 1) * F)) := by
    rw [div_eq_div_iff (mul_ne_zero (mul_ne_zero hQ hBM) (mul_ne_zero hM hF)) hD]; ring
  have h3 : R / (Q * F)
      = R * (B - 1) * (B + M) * (M + 1) / ((B - 1) * Q * (B + M) * ((M + 1) * F)) := by
    rw [div_eq_div_iff (mul_ne_zero hQ hF) hD]; ring
  have h4 : R * (A + M) / (Q * (B + M) / B * F)
      = R * (A + M) * B * (B - 1) * (M + 1) / ((B - 1) * Q * (B + M) * ((M + 1) * F)) := by
    rw [div_eq_div_iff (mul_ne_zero (div_ne_zero (mul_ne_zero hQ hBM) hB) hF) hD]
    field_simp
    ring
  rw [h1, h2, h3, h4]
  ring

end Kummer

/-! ## Values of the Kummer function at `z = 1` -/

section Values

/-- The exponential series at `1`. -/
theorem hasSum_inv_factorial : HasSum (fun n : ℕ => 1 / (n.factorial : ℝ)) (Real.exp 1) := by
  have h := NormedSpace.expSeries_div_hasSum_exp ℝ (1 : ℝ)
  rw [← Real.exp_eq_exp_ℝ] at h
  simpa using h

theorem rising_two (n : ℕ) : rising (2 : ℝ) n = ((n + 1).factorial : ℝ) := by
  induction n with
  | zero => simp [rising]
  | succ n ih =>
    rw [rising, ih, Nat.factorial_succ (n + 1)]
    push_cast
    ring

theorem rising_three (n : ℕ) : rising (3 : ℝ) n = ((n + 2).factorial : ℝ) / 2 := by
  induction n with
  | zero => simp [rising]
  | succ n ih =>
    rw [rising, ih, Nat.factorial_succ (n + 2)]
    push_cast
    ring

theorem rising_four (n : ℕ) : rising (4 : ℝ) n = ((n + 3).factorial : ℝ) / 6 := by
  induction n with
  | zero => simp [rising, Nat.factorial]
  | succ n ih =>
    rw [rising, ih, Nat.factorial_succ (n + 3)]
    push_cast
    ring

/-- The Kummer series at `(3, 3; 1)` sums to `e`. -/
theorem kummer_3_3_1 : HasSum (fun n : ℕ => kummer_coeff (3 : ℝ) 3 n * 1 ^ n) (Real.exp 1) := by
  have h : (fun n : ℕ => kummer_coeff (3 : ℝ) 3 n * 1 ^ n) = fun n : ℕ => 1 / (n.factorial : ℝ) := by
    funext n
    have h3 : rising (3 : ℝ) n ≠ 0 := by
      rw [rising_three]; positivity
    simp only [kummer_coeff, one_pow, mul_one]
    rw [div_mul_eq_div_div, div_self h3]
  rw [h]
  exact hasSum_inv_factorial

/-- The Kummer series at `(2, 3; 1)` sums to `2`. -/
theorem kummer_2_3_1 : HasSum (fun n : ℕ => kummer_coeff (2 : ℝ) 3 n * 1 ^ n) 2 := by
  have h1 := (hasSum_nat_add_iff' 1).2 hasSum_inv_factorial
  have h2 := (hasSum_nat_add_iff' 2).2 hasSum_inv_factorial
  have h := (h1.sub h2).mul_left 2
  have e : (fun n : ℕ => kummer_coeff (2 : ℝ) 3 n * 1 ^ n)
      = fun n : ℕ => 2 * (1 / ((n + 1).factorial : ℝ) - 1 / ((n + 2).factorial : ℝ)) := by
    funext n
    have hf : ((n.factorial : ℕ) : ℝ) ≠ 0 := Nat.cast_ne_zero.2 (Nat.factorial_ne_zero n)
    have hn1 : ((n : ℝ) + 1) ≠ 0 := Nat.cast_add_one_ne_zero n
    have hn2 : ((n : ℝ) + 2) ≠ 0 := by positivity
    simp only [kummer_coeff, one_pow, mul_one, rising_two, rising_three]
    rw [Nat.factorial_succ (n + 1), Nat.factorial_succ n]
    push_cast
    field_simp
    ring
  rw [e]
  convert h using 1
  simp [Finset.sum_range_succ]

/-- The Kummer series at `(4, 3; 1)` sums to `4e/3`. -/
theorem kummer_4_3_1 :
    HasSum (fun n : ℕ => kummer_coeff (4 : ℝ) 3 n * 1 ^ n) (4 * Real.exp 1 / 3) := by
  -- (n+3) / (3 n!) = (1/3) * (n / n!) + 1 / n!
  have h0 := hasSum_inv_factorial
  have hshift : HasSum (fun n : ℕ => (n : ℝ) / (n.factorial : ℝ)) (Real.exp 1) := by
    rw [← hasSum_nat_add_iff' 1]
    simp only [Finset.range_one, Finset.sum_singleton, Nat.cast_zero, zero_div, sub_zero]
    convert h0 using 2 with n
    rw [Nat.factorial_succ]
    push_cast
    have hf : ((n.factorial : ℕ) : ℝ) ≠ 0 := Nat.cast_ne_zero.2 (Nat.factorial_ne_zero n)
    have hn1 : ((n : ℝ) + 1) ≠ 0 := Nat.cast_add_one_ne_zero n
    field_simp
  have h := (hshift.mul_left (1 / 3)).add h0
  have e : (fun n : ℕ => kummer_coeff (4 : ℝ) 3 n * 1 ^ n)
      = fun n : ℕ => 1 / 3 * ((n : ℝ) / (n.factorial : ℝ)) + 1 / (n.factorial : ℝ) := by
    funext n
    have hf : ((n.factorial : ℕ) : ℝ) ≠ 0 := Nat.cast_ne_zero.2 (Nat.factorial_ne_zero n)
    have hf2 : (((n + 2).factorial : ℕ) : ℝ) ≠ 0 :=
      Nat.cast_ne_zero.2 (Nat.factorial_ne_zero (n + 2))
    simp only [kummer_coeff, one_pow, mul_one, rising_four, rising_three]
    rw [Nat.factorial_succ (n + 2)]
    push_cast
    field_simp
    ring
  rw [e]
  convert h using 1
  ring

end Values

/-! ## The propagation contracts -/

/-- Claim C5: for every coefficient callable, every step count `n ≥ 0` and every
seed pair, `hypergeometric_1f1_recurrence_forward` returns the value at offset
`n` of the sequence `y 0 = first`, `y 1 = second`,
`y (k+2) = (middle_k * y (k+1) - trailing_k * y k) / leading_k`. -/
theorem recurrence_forward_returns_sequence_value {T : Type} [Field T] [DecidableEq T]
    (c : ℤ → T × T × T) (n : ℤ) (first second : Option T) (hn : 0 ≤ n) :
    hypergeometric_1f1_recurrence_forward c n first second
      = forward_sequence c first second n.toNat := by
  obtain ⟨m, rfl⟩ := Int.eq_ofNat_of_zero_le hn
  unfold hypergeometric_1f1_recurrence_forward
  rw [forward_window_eq_iter, Int.toNat_natCast]
  exact (forward_iter_sequence c first second m).1

/-- Claim C6: for every coefficient callable, every target `last_index ≤ 0` and
every seed pair, `hypergeometric_1f1_recurrence_backward` performs exactly
`-last_index` steps, at the step indices `0, -1, ..., last_index + 1` in this
order, and returns the value at offset `-last_index` of the sequence
`w 0 = first`, `w 1 = second`,
`w (j+2) = (middle * w (j+1) - leading * w j) / trailing` with the triple of
the callable at `-j`. -/
theorem recurrence_backward_steps_and_value {T : Type} [Field T] [DecidableEq T]
    (c : ℤ → T × T × T) (last_index : ℤ) (first second : Option T) (hl : last_index ≤ 0) :
    (hypergeometric_1f1_recurrence_backward_window c last_index first second).visited
        = (List.range (-last_index).toNat).map (fun j : ℕ => -(j : ℤ))
    ∧ (hypergeometric_1f1_recurrence_backward_window c last_index first second).visited.length
        = (-last_index).toNat
    ∧ hypergeometric_1f1_recurrence_backward c last_index first second
        = backward_sequence c first second (-last_index).toNat := by
  obtain ⟨m, hm⟩ := Int.eq_ofNat_of_zero_le (neg_nonneg.2 hl)
  have e : last_index = -(m : ℤ) := by omega
  subst e
  unfold hypergeometric_1f1_recurrence_backward
  rw [backward_window_eq_iter, neg_neg, Int.toNat_natCast, backward_iter_visited]
  refine ⟨by simp [Window.enter], ?_, ?_⟩
  · simp only [Window.enter, List.nil_append, List.length_map, List.length_range]
  · exact (backward_iter_sequence c first second m).1

/-- Claim C5 at a concrete input: the vary-`a` family of `(1, 4, 1)`, two steps
from the seeds `2` and `3`. -/
theorem recurrence_forward_returns_sequence_value_witness :
    hypergeometric_1f1_recurrence_forward
        (hypergeometric_1f1_recurrence_a_coefficients (1 : ℚ) 4 1) 2 (some 2) (some 3)
      = forward_sequence (hypergeometric_1f1_recurrence_a_coefficients (1 : ℚ) 4 1)
          (some 2) (some 3) (2 : ℤ).toNat :=
  recurrence_forward_returns_sequence_value _ 2 (some 2) (some 3) (by decide)

/-- Claim C6 at a concrete input: the vary-`a` family of `(1, 4, 1)`, target
`-2`, from the seeds `3` and `2`. -/
theorem recurrence_backward_steps_and_value_witness :
    (hypergeometric_1f1_recurrence_backward_window
        (hypergeometric_1f1_recurrence_a_coefficients (1 : ℚ) 4 1) (-2) (some 3) (some 2)).visited
        = (List.range (-(-2 : ℤ)).toNat).map (fun j : ℕ => -(j : ℤ))
    ∧ (hypergeometric_1f1_recurrence_backward_window
        (hypergeometric_1f1_recurrence_a_coefficients (1 : ℚ) 4 1) (-2) (some 3)
          (some 2)).visited.length = (-(-2 : ℤ)).toNat
    ∧ hypergeometric_1f1_recurrence_backward
        (hypergeometric_1f1_recurrence_a_coefficients (1 : ℚ) 4 1) (-2) (some 3) (some 2)
        = backward_sequence (hypergeometric_1f1_recurrence_a_coefficients (1 : ℚ) 4 1)
            (some 3) (some 2) (-(-2 : ℤ)).toNat :=
  recurrence_backward_steps_and_value _ (-2) (some 3) (some 2) (by decide)

/-- The forward walk of two steps along the vary-`a` family of `(1, 4, 1)` from
the seeds `(2, 3)`. -/
theorem forward_window_example :
    hypergeometric_1f1_recurrence_forward_window
        (hypergeometric_1f1_recurrence_a_coefficients (1 : ℚ) 4 1) 2 (some 2) (some 3)
      = ⟨some 3, some (9 / 2), some 3, [0, 1], [-1, -2]⟩ := by
  rw [show (2 : ℤ) = ((2 : ℕ) : ℤ) from rfl, forward_window_eq_iter]
  simp [forward_iter, forward_body, Window.enter,
    hypergeometric_1f1_recurrence_a_coefficients, slotMul, slotSub, slotDiv]
  norm_num

/-- Claim C7, as stated, fails.  Along the vary-`a` family of `(1, 4, 1)` the
forward walk of two steps from the seeds `(2, 3)` meets the divisors `-1, -2`
and leaves the pair `(3, 9/2)`.  The backward walk of two steps along the same
callable from the pair as it was left meets the divisors `3, 4` and ends in
`(5/2, 15/8)`, not in `(2, 3)`.  Exchanging the two slots alone (the walk ends
in `(5/2, 15/8)` again), or shifting the step index of the callable alone (it
ends in `(3/4, 7/4)`), does not reproduce the seed pair either. -/
theorem forward_then_backward_same_callable_counterexample :
    (∀ d ∈ (hypergeometric_1f1_recurrence_forward_window
        (hypergeometric_1f1_recurrence_a_coefficients (1 : ℚ) 4 1) 2 (some 2) (some 3)).divisors,
        d ≠ 0)
    ∧ (hypergeometric_1f1_recurrence_backward_window
        (hypergeometric_1f1_recurrence_a_coefficients (1 : ℚ) 4 1) (-2)
        (hypergeometric_1f1_recurrence_forward_window
          (hypergeometric_1f1_recurrence_a_coefficients (1 : ℚ) 4 1) 2 (some 2) (some 3)).first
        (hypergeometric_1f1_recurrence_forward_window
          (hypergeometric_1f1_recurrence_a_coefficients (1 : ℚ) 4 1) 2 (some 2) (some 3)).second)
      = ⟨some (5 / 2), some (15 / 8), some (9 / 2), [0, -1], [3, 4]⟩
    ∧ ¬ ((hypergeometric_1f1_recurrence_backward_window
        (hypergeometric_1f1_recurrence_a_coefficients (1 : ℚ) 4 1) (-2)
        (hypergeometric_1f1_recurrence_forward_window
          (hypergeometric_1f1_recurrence_a_coefficients (1 : ℚ) 4 1) 2 (some 2) (some 3)).first
        (hypergeometric_1f1_recurrence_forward_window
          (hypergeometric_1f1_recurrence_a_coefficients (1 : ℚ) 4 1) 2 (some 2) (some 3)).second).first
          = some 2
      ∧ (hypergeometric_1f1_recurrence_backward_window
        (hypergeometric_1f1_recurrence_a_coefficients (1 : ℚ) 4 1) (-2)
        (hypergeometric_1f1_recurrence_forward_window
          (hypergeometric_1f1_recurrence_a_coefficients (1 : ℚ) 4 1) 2 (some 2) (some 3)).first
        (hypergeometric_1f1_recurrence_forward_window
          (hypergeometric_1f1_recurrence_a_coefficients (1 : ℚ) 4 1) 2 (some 2) (some 3)).second).second
          = some 3)
    ∧ (hypergeometric_1f1_recurrence_backward_window
        (hypergeometric_1f1_recurrence_a_coefficients (1 : ℚ) 4 1) (-2)
        (hypergeometric_1f1_recurrence_forward_window
          (hypergeometric_1f1_recurrence_a_coefficients (1 : ℚ) 4 1) 2 (some 2) (some 3)).second
        (hypergeometric_1f1_recurrence_forward_window
          (hypergeometric_1f1_recurrence_a_coefficients (1 : ℚ) 4 1) 2 (some 2) (some 3)).first)
      = ⟨some (5 / 2), some (15 / 8), some 3, [0, -1], [3, 4]⟩
    ∧ (hypergeometric_1f1_recurrence_backward_window
        (fun k => hypergeometric_1f1_recurrence_a_coefficients (1 : ℚ) 4 1 ((2 : ℤ) - 1 + k))
        (-2)
        (hypergeometric_1f1_recurrence_forward_window
          (hypergeometric_1f1_recurrence_a_coefficients (1 : ℚ) 4 1) 2 (some 2) (some 3)).first
        (hypergeometric_1f1_recurrence_forward_window
          (hypergeometric_1f1_recurrence_a_coefficients (1 : ℚ) 4 1) 2 (some 2) (some 3)).second)
      = ⟨some (3 / 4), some (7 / 4), some (9 / 2), [0, -1], [2, 3]⟩ := by
  have hback : (hypergeometric_1f1_recurrence_backward_window
        (hypergeometric_1f1_recurrence_a_coefficients (1 : ℚ) 4 1) (-2) (some 3) (some (9 / 2)))
      = ⟨some (5 / 2), some (15 / 8), some (9 / 2), [0, -1], [3, 4]⟩ := by
    rw [show (-2 : ℤ) = -((2 : ℕ) : ℤ) from rfl, backward_window_eq_iter]
    simp [backward_iter, backward_body, Window.enter,
      hypergeometric_1f1_recurrence_a_coefficients, slotMul, slotSub, slotDiv]
    norm_num
  rw [forward_window_example]
  simp only [hback]
  refine ⟨?_, trivial, ?_, ?_, ?_⟩
  · intro d hd
    simp only [List.mem_cons, List.mem_singleton, List.not_mem_nil, or_false] at hd
    rcases hd with rfl | rfl <;> norm_num
  · rintro ⟨h, _⟩
    rw [Option.some.injEq] at h
    norm_num at h
  · rw [show (-2 : ℤ) = -((2 : ℕ) : ℤ) from rfl, backward_window_eq_iter]
    simp [backward_iter, backward_body, Window.enter,
      hypergeometric_1f1_recurrence_a_coefficients, slotMul, slotSub, slotDiv]
    norm_num
  · rw [show (-2 : ℤ) = -((2 : ℕ) : ℤ) from rfl, backward_window_eq_iter]
    simp [backward_iter, backward_body, Window.enter,
      hypergeometric_1f1_recurrence_a_coefficients, slotMul, slotSub, slotDiv]
    norm_num

/-- Claim C7, amended: for every coefficient family `c`, every `n ≥ 0` and
every finite seed pair, if no divisor met is zero, the forward walk of `n`
steps followed by the backward walk of `n` steps along the family shifted to
the last forward step (`k ↦ c (n - 1 + k)`), started from the pair the forward
walk left with its two slots exchanged, ends with the original seed pair in
exchanged slots: `first` holds the original `second` and `second` the original
`first`. -/
theorem forward_then_backward_shifted_inverse {T : Type} [Field T] [DecidableEq T]
    (c : ℤ → T × T × T) (n : ℤ) (first second : T) (hn : 0 ≤ n)
    (hfwd : ∀ d ∈ (hypergeometric_1f1_recurrence_forward_window c n
      (some first) (some second)).divisors, d ≠ 0)
    (hbwd : ∀ d ∈ (hypergeometric_1f1_recurrence_backward_window (fun k => c (n - 1 + k)) (-n)
      (hypergeometric_1f1_recurrence_forward_window c n (some first) (some second)).second
      (hypergeometric_1f1_recurrence_forward_window c n (some first) (some second)).first).divisors,
      d ≠ 0) :
    (hypergeometric_1f1_recurrence_backward_window (fun k => c (n - 1 + k)) (-n)
      (hypergeometric_1f1_recurrence_forward_window c n (some first) (some second)).second
      (hypergeometric_1f1_recurrence_forward_window c n (some first) (some second)).first).first
        = some second
    ∧ (hypergeometric_1f1_recurrence_backward_window (fun k => c (n - 1 + k)) (-n)
      (hypergeometric_1f1_recurrence_forward_window c n (some first) (some second)).second
      (hypergeometric_1f1_recurrence_forward_window c n (some first) (some second)).first).second
        = some first := by
  obtain ⟨m, rfl⟩ := Int.eq_ofNat_of_zero_le hn
  rw [backward_window_eq_iter] at hbwd ⊢
  rw [forward_window_eq_iter] at hfwd hbwd ⊢
  rw [forward_iter_divisors] at hfwd
  rw [backward_iter_divisors] at hbwd
  have hl : ∀ k : ℕ, k < m → (c (k : ℤ)).1 ≠ 0 := by
    intro k hk
    apply hfwd
    simp only [Window.enter, List.nil_append, List.mem_map, List.mem_range]
    exact ⟨k, hk, rfl⟩
  have ht : ∀ j : ℕ, j < m → (c ((m : ℤ) - 1 + -(j : ℤ))).2.2 ≠ 0 := by
    intro j hj
    apply hbwd
    simp only [Window.enter, List.nil_append, List.mem_map, List.mem_range]
    exact ⟨j, hj, rfl⟩
  obtain ⟨e1, e2⟩ := forward_iter_values c (forward_values c first second) m
    (Window.enter (some first) (some second)) rfl rfl (by
      intro j hj
      refine ⟨hl j hj, ?_⟩
      simp only [forward_values]
      rw [mul_div_cancel₀ _ (hl j hj)])
  rw [e1, e2]
  have h := backward_iter_values (fun k => c ((m : ℤ) - 1 + k))
    (fun j => forward_values c first second (m + 1 - j)) m
    (Window.enter (some (forward_values c first second (m + 1)))
      (some (forward_values c first second m)))
    rfl (by simp [Window.enter]) (by
      intro j hj
      refine ⟨ht j hj, ?_⟩
      have ek : (m : ℤ) - 1 + -(j : ℤ) = ((m - 1 - j : ℕ) : ℤ) := by omega
      have e0 : m + 1 - j = (m - 1 - j) + 2 := by omega
      have e1 : m + 1 - (j + 1) = (m - 1 - j) + 1 := by omega
      have e2 : m + 1 - (j + 2) = m - 1 - j := by omega
      simp only [ek, e0, e1, e2]
      have hne := hl (m - 1 - j) (by omega)
      simp only [forward_values]
      field_simp)
  obtain ⟨r1, r2⟩ := h
  refine ⟨?_, ?_⟩
  · rw [r1]; simp [forward_values]
  · rw [r2]; simp [forward_values]

/-- Claim C7 (amended) at a concrete input: the vary-`a` family of `(1, 4, 1)`,
two steps from the seeds `(2, 3)`; the backward walk ends in `(3, 2)`. -/
theorem forward_then_backward_shifted_inverse_witness :
    (hypergeometric_1f1_recurrence_backward_window
      (fun k => hypergeometric_1f1_recurrence_a_coefficients (1 : ℚ) 4 1 ((2 : ℤ) - 1 + k)) (-2)
      (hypergeometric_1f1_recurrence_forward_window
        (hypergeometric_1f1_recurrence_a_coefficients (1 : ℚ) 4 1) 2 (some 2) (some 3)).second
      (hypergeometric_1f1_recurrence_forward_window
        (hypergeometric_1f1_recurrence_a_coefficients (1 : ℚ) 4 1) 2 (some 2) (some 3)).first).first
        = some 3
    ∧ (hypergeometric_1f1_recurrence_backward_window
      (fun k => hypergeometric_1f1_recurrence_a_coefficients (1 : ℚ) 4 1 ((2 : ℤ) - 1 + k)) (-2)
      (hypergeometric_1f1_recurrence_forward_window
        (hypergeometric_1f1_recurrence_a_coefficients (1 : ℚ) 4 1) 2 (some 2) (some 3)).second
      (hypergeometric_1f1_recurrence_forward_window
        (hypergeometric_1f1_recurrence_a_coefficients (1 : ℚ) 4 1) 2 (some 2) (some 3)).first).second
        = some 2 :=
  forward_then_backward_shifted_inverse
    (hypergeometric_1f1_recurrence_a_coefficients (1 : ℚ) 4 1) 2 2 3 (by decide)
    (by
      rw [show (2 : ℤ) = ((2 : ℕ) : ℤ) from rfl, forward_window_eq_iter, forward_iter_divisors]
      simp [Window.enter, List.range_succ, hypergeometric_1f1_recurrence_a_coefficients])
    (by
      rw [show (-2 : ℤ) = -((2 : ℕ) : ℤ) from rfl, backward_window_eq_iter,
        backward_iter_divisors]
      simp [Window.enter, List.range_succ, hypergeometric_1f1_recurrence_a_coefficients]
      norm_num)

/-- Claim C20: the last step of each propagation is dead work for the returned
value.  For every `n ≥ 1`, every seed pair and every two coefficient callables
that agree at all indices except `n - 1`,
`hypergeometric_1f1_recurrence_forward` with step count `n` returns the same
value for both; and `hypergeometric_1f1_recurrence_backward` with a target
`last_index ≤ -1` returns the same value for two callables that agree at all
indices except `last_index + 1`. -/
theorem last_step_is_dead_work {T : Type} [Field T] [DecidableEq T]
    (c1 c2 : ℤ → T × T × T) (first second : Option T) :
    (∀ n : ℤ, 1 ≤ n → (∀ k : ℤ, k ≠ n - 1 → c1 k = c2 k) →
      hypergeometric_1f1_recurrence_forward c1 n first second
        = hypergeometric_1f1_recurrence_forward c2 n first second)
    ∧ (∀ last_index : ℤ, last_index ≤ -1 → (∀ k : ℤ, k ≠ last_index + 1 → c1 k = c2 k) →
      hypergeometric_1f1_recurrence_backward c1 last_index first second
        = hypergeometric_1f1_recurrence_backward c2 last_index first second) := by
  constructor
  · intro n hn h
    obtain ⟨m, hm⟩ := Int.eq_ofNat_of_zero_le (show 0 ≤ n - 1 by omega)
    have e : n = ((m + 1 : ℕ) : ℤ) := by omega
    subst e
    unfold hypergeometric_1f1_recurrence_forward
    rw [forward_window_eq_iter, forward_window_eq_iter, forward_iter_succ, forward_iter_succ,
      forward_iter_congr c1 c2 _ m (fun j hj => h j (by omega))]
    rfl
  · intro last_index hl h
    obtain ⟨m, hm⟩ := Int.eq_ofNat_of_zero_le (show 0 ≤ -last_index - 1 by omega)
    have e : last_index = -((m + 1 : ℕ) : ℤ) := by omega
    subst e
    unfold hypergeometric_1f1_recurrence_backward
    rw [backward_window_eq_iter, backward_window_eq_iter, backward_iter_succ,
      backward_iter_succ, backward_iter_congr c1 c2 _ m (fun j hj => h (-(j : ℤ)) (by omega))]
    rfl

/-- Claim C20 at a concrete input: the vary-`a` family of `(1, 4, 1)` and the
callable that differs from it only at the last step index, where its triple is
`(0, 0, 0)`, return the same value: forward with step count `2` (last step at
index `1`) and backward with target `-2` (last step at index `-1`). -/
theorem last_step_is_dead_work_witness :
    hypergeometric_1f1_recurrence_forward
        (hypergeometric_1f1_recurrence_a_coefficients (1 : ℚ) 4 1) 2 (some 2) (some 3)
      = hypergeometric_1f1_recurrence_forward
        (fun k => if k = 1 then (0, 0, 0)
          else hypergeometric_1f1_recurrence_a_coefficients (1 : ℚ) 4 1 k) 2 (some 2) (some 3)
    ∧ hypergeometric_1f1_recurrence_backward
        (hypergeometric_1f1_recurrence_a_coefficients (1 : ℚ) 4 1) (-2) (some 2) (some 3)
      = hypergeometric_1f1_recurrence_backward
        (fun k => if k = -1 then (0, 0, 0)
          else hypergeometric_1f1_recurrence_a_coefficients (1 : ℚ) 4 1 k)
        (-2) (some 2) (some 3) :=
  ⟨(last_step_is_dead_work (hypergeometric_1f1_recurrence_a_coefficients (1 : ℚ) 4 1)
      (fun k => if k = 1 then (0, 0, 0)
        else hypergeometric_1f1_recurrence_a_coefficients (1 : ℚ) 4 1 k) (some 2) (some 3)).1
      2 (by decide) (by intro k hk; rw [if_neg (by omega)]),
    (last_step_is_dead_work (hypergeometric_1f1_recurrence_a_coefficients (1 : ℚ) 4 1)
      (fun k => if k = -1 then (0, 0, 0)
        else hypergeometric_1f1_recurrence_a_coefficients (1 : ℚ) 4 1 k) (some 2) (some 3)).2
      (-2) (by decide) (by intro k hk; rw [if_neg (by omega)])⟩

/-! ## The coefficient families -/

/-- Claim C9: at every `a`, `b`, `z` and every integer step index `i` each
coefficient family returns its closed form. -/
theorem coefficient_families_closed_form {T : Type} [Ring T] (a b z : T) (i : ℤ) :
    hypergeometric_1f1_recurrence_a_coefficients a b z i
        = (-(a + i), (b - 2 * (a + i)) - z, b - (a + i))
    ∧ hypergeometric_1f1_recurrence_b_coefficients a b z i
        = (z * ((b + i) - a), (b + i) * ((z + (b + i)) - 1), (b + i) * ((b + i) - 1))
    ∧ hypergeometric_1f1_recurrence_a_and_b_coefficients a b z i
        = ((a + i) * z, (b + i) * ((1 - (b + i)) + z), (b + i) * (1 - (b + i))) :=
  ⟨rfl, rfl, rfl⟩

/-- Claim C8, as stated, fails.  The Kummer series sums to `M(2,3,1) = 2`,
`M(3,3,1) = e` and `M(4,3,1) = 4e/3`.  With the vary-`a` family constructed
with `a = 2`, `b = 3`, `z = 1` and the seeds `first = M(2,3,1)`,
`second = M(3,3,1)`, the call with step count `1` returns the second seed `e`,
and the value its single step computes (left in the `second` slot) is `e + 1`;
neither is `M(4,3,1) = 4e/3`. -/
theorem forward_one_step_vary_a_counterexample :
    HasSum (fun n : ℕ => kummer_coeff (2 : ℝ) 3 n * 1 ^ n) 2
    ∧ HasSum (fun n : ℕ => kummer_coeff (3 : ℝ) 3 n * 1 ^ n) (Real.exp 1)
    ∧ HasSum (fun n : ℕ => kummer_coeff (4 : ℝ) 3 n * 1 ^ n) (4 * Real.exp 1 / 3)
    ∧ hypergeometric_1f1_recurrence_forward
        (hypergeometric_1f1_recurrence_a_coefficients (2 : ℝ) 3 1) 1
        (some 2) (some (Real.exp 1)) = some (Real.exp 1)
    ∧ (hypergeometric_1f1_recurrence_forward_window
        (hypergeometric_1f1_recurrence_a_coefficients (2 : ℝ) 3 1) 1
        (some 2) (some (Real.exp 1))).second = some (Real.exp 1 + 1)
    ∧ Real.exp 1 ≠ 4 * Real.exp 1 / 3
    ∧ Real.exp 1 + 1 ≠ 4 * Real.exp 1 / 3 := by
  have hpos : 0 < Real.exp 1 := Real.exp_pos 1
  have hlt : Real.exp 1 < 3 := lt_trans Real.exp_one_lt_d9 (by norm_num)
  refine ⟨kummer_2_3_1, kummer_3_3_1, kummer_4_3_1, ?_, ?_, ?_, ?_⟩
  · unfold hypergeometric_1f1_recurrence_forward
    rw [show (1 : ℤ) = ((1 : ℕ) : ℤ) from rfl, forward_window_eq_iter]
    simp [forward_iter, forward_body, Window.enter]
  · rw [show (1 : ℤ) = ((1 : ℕ) : ℤ) from rfl, forward_window_eq_iter]
    simp [forward_iter, forward_body, Window.enter,
      hypergeometric_1f1_recurrence_a_coefficients, slotMul, slotSub, slotDiv]
    ring
  · intro h; linarith
  · intro h; linarith

/-- Claim C8, amended: the Kummer series sums to `M(2,3,1) = 2`,
`M(3,3,1) = e` and `M(4,3,1) = 4e/3`, and with the vary-`a` family constructed
with `a = 3` (the first parameter of the second seed), `b = 3`, `z = 1` and the
seeds `first = M(2,3,1)`, `second = M(3,3,1)`, one step of forward propagation
leaves `M(4,3,1)` in the `second` slot, and the call with step count `2`
returns `M(4,3,1)`. -/
theorem forward_vary_a_anchored_at_second_seed :
    HasSum (fun n : ℕ => kummer_coeff (2 : ℝ) 3 n * 1 ^ n) 2
    ∧ HasSum (fun n : ℕ => kummer_coeff (3 : ℝ) 3 n * 1 ^ n) (Real.exp 1)
    ∧ HasSum (fun n : ℕ => kummer_coeff (4 : ℝ) 3 n * 1 ^ n) (4 * Real.exp 1 / 3)
    ∧ (hypergeometric_1f1_recurrence_forward_window
        (hypergeometric_1f1_recurrence_a_coefficients (3 : ℝ) 3 1) 1
        (some 2) (some (Real.exp 1))).second = some (4 * Real.exp 1 / 3)
    ∧ hypergeometric_1f1_recurrence_forward
        (hypergeometric_1f1_recurrence_a_coefficients (3 : ℝ) 3 1) 2
        (some 2) (some (Real.exp 1)) = some (4 * Real.exp 1 / 3) := by
  refine ⟨kummer_2_3_1, kummer_3_3_1, kummer_4_3_1, ?_, ?_⟩
  · rw [show (1 : ℤ) = ((1 : ℕ) : ℤ) from rfl, forward_window_eq_iter]
    simp [forward_iter, forward_body, Window.enter,
      hypergeometric_1f1_recurrence_a_coefficients, slotMul, slotSub, slotDiv]
    ring
  · unfold hypergeometric_1f1_recurrence_forward
    rw [show (2 : ℤ) = ((2 : ℕ) : ℤ) from rfl, forward_window_eq_iter]
    simp [forward_iter, forward_body, Window.enter,
      hypergeometric_1f1_recurrence_a_coefficients, slotMul, slotSub, slotDiv]
    ring

/-- Claim C10: the vary-`a` triple encodes the three-term recurrence of the
Kummer series in its first parameter.  For `b` not a non-positive integer and
every base `a` and offset `i`, the triple of
`hypergeometric_1f1_recurrence_a_coefficients` at `i`, with `z` the
indeterminate, satisfies
`leading * M(a+i+1, b; z) = middle * M(a+i, b; z) - trailing * M(a+i-1, b; z)`
as an identity of formal power series, that is coefficient by coefficient in
powers of `z`. -/
theorem a_coefficients_kummer_recurrence {K : Type} [Field K] [CharZero K] (a b : K) (i : ℤ)
    (hb : ∀ m : ℕ, b ≠ -(m : K)) :
    (hypergeometric_1f1_recurrence_a_coefficients
        (PowerSeries.C K a) (PowerSeries.C K b) PowerSeries.X i).1
      * kummer_series (a + (i : K) + 1) b
    = (hypergeometric_1f1_recurrence_a_coefficients
        (PowerSeries.C K a) (PowerSeries.C K b) PowerSeries.X i).2.1
      * kummer_series (a + (i : K)) b
    - (hypergeometric_1f1_recurrence_a_coefficients
        (PowerSeries.C K a) (PowerSeries.C K b) PowerSeries.X i).2.2
      * kummer_series (a + (i : K) - 1) b := by
  have hi : ((i : ℤ) : PowerSeries K) = PowerSeries.C K (i : K) :=
    (map_intCast (PowerSeries.C K) i).symm
  have h2 : (2 : PowerSeries K) = PowerSeries.C K 2 := (map_ofNat (PowerSeries.C K) 2).symm
  simp only [hypergeometric_1f1_recurrence_a_coefficients, hi, h2]
  simp only [← map_add, ← map_neg, ← map_sub, ← map_mul]
  ext n
  cases n with
  | zero =>
    simp only [sub_mul, map_sub, PowerSeries.coeff_C_mul, kummer_series, PowerSeries.coeff_mk,
      kummer_coeff_zero, PowerSeries.coeff_zero_X_mul]
    ring
  | succ m =>
    simp only [sub_mul, map_sub, PowerSeries.coeff_C_mul, kummer_series, PowerSeries.coeff_mk,
      PowerSeries.coeff_succ_X_mul]
    have hr := rising_ne_zero b hb m
    have hbm : b + (m : K) ≠ 0 := fun h => hb m (by linear_combination h)
    have hf : ((m.factorial : ℕ) : K) ≠ 0 := Nat.cast_ne_zero.2 (Nat.factorial_ne_zero m)
    have hm1 : ((m : K) + 1) ≠ 0 := Nat.cast_add_one_ne_zero m
    rw [neg_mul, kummer_coeff_succ_up, kummer_coeff_succ, kummer_coeff_succ_down, kummer_coeff]
    exact kummer_a_identity _ _ _ _ _ _ hr hbm hf hm1

/-- Claim C10 at a concrete input: base `a = 1/2`, `b = 3`, offset `i = 2`, over
the rationals. -/
theorem a_coefficients_kummer_recurrence_witness :
    (hypergeometric_1f1_recurrence_a_coefficients
        (PowerSeries.C ℚ (1 / 2)) (PowerSeries.C ℚ 3) PowerSeries.X 2).1
      * kummer_series ((1 / 2 : ℚ) + ((2 : ℤ) : ℚ) + 1) 3
    = (hypergeometric_1f1_recurrence_a_coefficients
        (PowerSeries.C ℚ (1 / 2)) (PowerSeries.C ℚ 3) PowerSeries.X 2).2.1
      * kummer_series ((1 / 2 : ℚ) + ((2 : ℤ) : ℚ)) 3
    - (hypergeometric_1f1_recurrence_a_coefficients
        (PowerSeries.C ℚ (1 / 2)) (PowerSeries.C ℚ 3) PowerSeries.X 2).2.2
      * kummer_series ((1 / 2 : ℚ) + ((2 : ℤ) : ℚ) - 1) 3 :=
  a_coefficients_kummer_recurrence (1 / 2) 3 2 (by
    intro m h
    have hm : (0 : ℚ) ≤ (m : ℚ) := Nat.cast_nonneg m
    linarith)

/-- Claim C11: the vary-`b` triple is a three-term recurrence of the Kummer
series in its second parameter.  For every base `b` and offset `i` such that
`b+i-1`, `b+i` and `b+i+1` are not non-positive integers, the triple of
`hypergeometric_1f1_recurrence_b_coefficients` at `i`, with `z` the
indeterminate, satisfies
`trailing * M(a, b+i-1; z) = middle * M(a, b+i; z) - leading * M(a, b+i+1; z)`
as an identity of formal power series, that is coefficient by coefficient in
powers of `z`. -/
theorem b_coefficients_kummer_recurrence {K : Type} [Field K] [CharZero K] (a b : K) (i : ℤ)
    (h0 : ∀ m : ℕ, b + (i : K) - 1 ≠ -(m : K))
    (h1 : ∀ m : ℕ, b + (i : K) ≠ -(m : K))
    (h2 : ∀ m : ℕ, b + (i : K) + 1 ≠ -(m : K)) :
    (hypergeometric_1f1_recurrence_b_coefficients
        (PowerSeries.C K a) (PowerSeries.C K b) PowerSeries.X i).2.2
      * kummer_series a (b + (i : K) - 1)
    = (hypergeometric_1f1_recurrence_b_coefficients
        (PowerSeries.C K a) (PowerSeries.C K b) PowerSeries.X i).2.1
      * kummer_series a (b + (i : K))
    - (hypergeometric_1f1_recurrence_b_coefficients
        (PowerSeries.C K a) (PowerSeries.C K b) PowerSeries.X i).1
      * kummer_series a (b + (i : K) + 1) := by
  have hi : ((i : ℤ) : PowerSeries K) = PowerSeries.C K (i : K) :=
    (map_intCast (PowerSeries.C K) i).symm
  have hone : (1 : PowerSeries K) = PowerSeries.C K 1 := (map_one (PowerSeries.C K)).symm
  simp only [hypergeometric_1f1_recurrence_b_coefficients, hi]
  rw [← map_add]
  generalize hB : b + (i : K) = B at h0 h1 h2 ⊢
  have e1 : PowerSeries.C K B * (PowerSeries.C K B - 1) = PowerSeries.C K (B * (B - 1)) := by
    rw [hone, ← map_sub, ← map_mul]
  have e2 : PowerSeries.C K B * ((PowerSeries.X + PowerSeries.C K B) - 1) * kummer_series a B
      - PowerSeries.X * (PowerSeries.C K B - PowerSeries.C K a) * kummer_series a (B + 1)
      = PowerSeries.C K (B * (B - 1)) * kummer_series a B
        + PowerSeries.C K B * (PowerSeries.X * kummer_series a B)
        - (PowerSeries.C K B * (PowerSeries.X * kummer_series a (B + 1))
          - PowerSeries.C K a * (PowerSeries.X * kummer_series a (B + 1))) := by
    rw [← e1]
    ring
  rw [e1, e2]
  ext n
  cases n with
  | zero =>
    simp only [map_add, map_sub, PowerSeries.coeff_C_mul, kummer_series, PowerSeries.coeff_mk,
      kummer_coeff_zero, PowerSeries.coeff_zero_X_mul]
    ring
  | succ m =>
    simp only [map_add, map_sub, PowerSeries.coeff_C_mul, kummer_series, PowerSeries.coeff_mk,
      PowerSeries.coeff_succ_X_mul]
    have hB0 : B ≠ 0 := by simpa using h1 0
    have hB1 : B - 1 ≠ 0 := by simpa using h0 0
    have hQ := rising_ne_zero B h1 m
    have hBm : B + (m : K) ≠ 0 := fun h => h1 m (by linear_combination h)
    have hf : ((m.factorial : ℕ) : K) ≠ 0 := Nat.cast_ne_zero.2 (Nat.factorial_ne_zero m)
    have hm1 : ((m : K) + 1) ≠ 0 := Nat.cast_add_one_ne_zero m
    have c1 : kummer_coeff a (B - 1) (m + 1)
        = rising a m * (a + (m : K)) / ((B - 1) * rising B m * (((m : K) + 1) * (m.factorial : K))) := by
      simp only [kummer_coeff, rising_shift_down, Nat.factorial_succ]
      simp only [rising]
      push_cast
      rfl
    have c3 : kummer_coeff a (B + 1) m
        = rising a m / (rising B m * (B + (m : K)) / B * (m.factorial : K)) := by
      simp only [kummer_coeff, rising_shift_up B hB0]
    rw [c1, kummer_coeff_succ, c3, kummer_coeff]
    exact kummer_b_identity _ _ _ _ _ _ hB0 hB1 hQ hBm hf hm1

/-- Claim C11 at a concrete input: `a = 1/2`, base `b = -1/2`, offset `i = -3`
(so `b + i = -7/2`), over the rationals. -/
theorem b_coefficients_kummer_recurrence_witness :
    (hypergeometric_1f1_recurrence_b_coefficients
        (PowerSeries.C ℚ (1 / 2)) (PowerSeries.C ℚ (-1 / 2)) PowerSeries.X (-3)).2.2
      * kummer_series (1 / 2 : ℚ) ((-1 / 2 : ℚ) + ((-3 : ℤ) : ℚ) - 1)
    = (hypergeometric_1f1_recurrence_b_coefficients
        (PowerSeries.C ℚ (1 / 2)) (PowerSeries.C ℚ (-1 / 2)) PowerSeries.X (-3)).2.1
      * kummer_series (1 / 2 : ℚ) ((-1 / 2 : ℚ) + ((-3 : ℤ) : ℚ))
    - (hypergeometric_1f1_recurrence_b_coefficients
        (PowerSeries.C ℚ (1 / 2)) (PowerSeries.C ℚ (-1 / 2)) PowerSeries.X (-3)).1
      * kummer_series (1 / 2 : ℚ) ((-1 / 2 : ℚ) + ((-3 : ℤ) : ℚ) + 1) :=
  b_coefficients_kummer_recurrence (1 / 2) (-1 / 2) (-3)
    (by
      intro m h
      have h2 : ((2 * m : ℕ) : ℚ) = 9 := by push_cast at h ⊢; linarith
      have h3 : 2 * m = 9 := by exact_mod_cast h2
      omega)
    (by
      intro m h
      have h2 : ((2 * m : ℕ) : ℚ) = 7 := by push_cast at h ⊢; linarith
      have h3 : 2 * m = 7 := by exact_mod_cast h2
      omega)
    (by
      intro m h
      have h2 : ((2 * m : ℕ) : ℚ) = 5 := by push_cast at h ⊢; linarith
      have h3 : 2 * m = 5 := by exact_mod_cast h2
      omega)

/-- Claim C12: the joint triple is a three-term recurrence of the Kummer series
in both parameters.  For every base pair `(a, b)` and offset `i` such that
`b+i-1`, `b+i` and `b+i+1` are not non-positive integers, the triple of
`hypergeometric_1f1_recurrence_a_and_b_coefficients` at `i`, with `z` the
indeterminate, satisfies
`trailing * M(a+i-1, b+i-1; z) = middle * M(a+i, b+i; z)
  - leading * M(a+i+1, b+i+1; z)`
as an identity of formal power series, that is coefficient by coefficient in
powers of `z`. -/
theorem a_and_b_coefficients_kummer_recurrence {K : Type} [Field K] [CharZero K]
    (a b : K) (i : ℤ)
    (h0 : ∀ m : ℕ, b + (i : K) - 1 ≠ -(m : K))
    (h1 : ∀ m : ℕ, b + (i : K) ≠ -(m : K))
    (h2 : ∀ m : ℕ, b + (i : K) + 1 ≠ -(m : K)) :
    (hypergeometric_1f1_recurrence_a_and_b_coefficients
        (PowerSeries.C K a) (PowerSeries.C K b) PowerSeries.X i).2.2
      * kummer_series (a + (i : K) - 1) (b + (i : K) - 1)
    = (hypergeometric_1f1_recurrence_a_and_b_coefficients
        (PowerSeries.C K a) (PowerSeries.C K b) PowerSeries.X i).2.1
      * kummer_series (a + (i : K)) (b + (i : K))
    - (hypergeometric_1f1_recurrence_a_and_b_coefficients
        (PowerSeries.C K a) (PowerSeries.C K b) PowerSeries.X i).1
      * kummer_series (a + (i : K) + 1) (b + (i : K) + 1) := by
  have hi : ((i : ℤ) : PowerSeries K) = PowerSeries.C K (i : K) :=
    (map_intCast (PowerSeries.C K) i).symm
  have hone : (1 : PowerSeries K) = PowerSeries.C K 1 := (map_one (PowerSeries.C K)).symm
  simp only [hypergeometric_1f1_recurrence_a_and_b_coefficients, hi]
  rw [← map_add, ← map_add]
  generalize hB : b + (i : K) = B at h0 h1 h2 ⊢
  generalize a + (i : K) = A
  have e1 : PowerSeries.C K B * (1 - PowerSeries.C K B) = PowerSeries.C K (B * (1 - B)) := by
    rw [hone, ← map_sub, ← map_mul]
  have e2 : PowerSeries.C K B * ((1 - PowerSeries.C K B) + PowerSeries.X) * kummer_series A B
      - PowerSeries.C K A * PowerSeries.X * kummer_series (A + 1) (B + 1)
      = PowerSeries.C K (B * (1 - B)) * kummer_series A B
        + PowerSeries.C K B * (PowerSeries.X * kummer_series A B)
        - PowerSeries.C K A * (PowerSeries.X * kummer_series (A + 1) (B + 1)) := by
    rw [← e1]
    ring
  rw [e1, e2]
  ext n
  cases n with
  | zero =>
    simp only [map_add, map_sub, PowerSeries.coeff_C_mul, kummer_series, PowerSeries.coeff_mk,
      kummer_coeff_zero, PowerSeries.coeff_zero_X_mul]
    ring
  | succ m =>
    simp only [map_add, map_sub, PowerSeries.coeff_C_mul, kummer_series, PowerSeries.coeff_mk,
      PowerSeries.coeff_succ_X_mul]
    have hB0 : B ≠ 0 := by simpa using h1 0
    have hB1 : B - 1 ≠ 0 := by simpa using h0 0
    have hQ := rising_ne_zero B h1 m
    have hBm : B + (m : K) ≠ 0 := fun h => h1 m (by linear_combination h)
    have hf : ((m.factorial : ℕ) : K) ≠ 0 := Nat.cast_ne_zero.2 (Nat.factorial_ne_zero m)
    have hm1 : ((m : K) + 1) ≠ 0 := Nat.cast_add_one_ne_zero m
    have c1 : kummer_coeff (A - 1) (B - 1) (m + 1)
        = (A - 1) * rising A m
          / ((B - 1) * rising B m * (((m : K) + 1) * (m.factorial : K))) := by
      simp only [kummer_coeff, rising_shift_down, Nat.factorial_succ]
      push_cast
      rfl
    have c3 : A * kummer_coeff (A + 1) (B + 1) m
        = rising A m * (A + (m : K)) / (rising B m * (B + (m : K)) / B * (m.factorial : K)) := by
      simp only [kummer_coeff, rising_shift_up B hB0]
      rw [← mul_div_assoc, ← rising_succ_left]
      rfl
    rw [c1, kummer_coeff_succ, c3, kummer_coeff]
    exact kummer_ab_identity _ _ _ _ _ _ hB0 hB1 hQ hBm hf hm1

/-- Claim C12 at a concrete input: base pair `a = -1/3`, `b = -1/2`, offset
`i = -3` (so `a + i = -10/3`, `b + i = -7/2`), over the rationals. -/
theorem a_and_b_coefficients_kummer_recurrence_witness :
    (hypergeometric_1f1_recurrence_a_and_b_coefficients
        (PowerSeries.C ℚ (-1 / 3)) (PowerSeries.C ℚ (-1 / 2)) PowerSeries.X (-3)).2.2
      * kummer_series ((-1 / 3 : ℚ) + ((-3 : ℤ) : ℚ) - 1) ((-1 / 2 : ℚ) + ((-3 : ℤ) : ℚ) - 1)
    = (hypergeometric_1f1_recurrence_a_and_b_coefficients
        (PowerSeries.C ℚ (-1 / 3)) (PowerSeries.C ℚ (-1 / 2)) PowerSeries.X (-3)).2.1
      * kummer_series ((-1 / 3 : ℚ) + ((-3 : ℤ) : ℚ)) ((-1 / 2 : ℚ) + ((-3 : ℤ) : ℚ))
    - (hypergeometric_1f1_recurrence_a_and_b_coefficients
        (PowerSeries.C ℚ (-1 / 3)) (PowerSeries.C ℚ (-1 / 2)) PowerSeries.X (-3)).1
      * kummer_series ((-1 / 3 : ℚ) + ((-3 : ℤ) : ℚ) + 1) ((-1 / 2 : ℚ) + ((-3 : ℤ) : ℚ) + 1) :=
  a_and_b_coefficients_kummer_recurrence (-1 / 3) (-1 / 2) (-3)
    (by
      intro m h
      have h2 : ((2 * m : ℕ) : ℚ) = 9 := by push_cast at h ⊢; linarith
      have h3 : 2 * m = 9 := by exact_mod_cast h2
      omega)
    (by
      intro m h
      have h2 : ((2 * m : ℕ) : ℚ) = 7 := by push_cast at h ⊢; linarith
      have h3 : 2 * m = 7 := by exact_mod_cast h2
      omega)
    (by
      intro m h
      have h2 : ((2 * m : ℕ) : ℚ) = 5 := by push_cast at h ⊢; linarith
      have h3 : 2 * m = 5 := by exact_mod_cast h2
      omega)

/-! ## The drivers -/

section Drivers

variable {T : Type} [LinearOrderedField T] [FloorRing T]

/-- The `if` of the negative-`a` driver, by cases on its condition. -/
theorem negative_a_anchor_cases (P : FloatPrimitives T) (a b : T) :
    ((a < b ∧ b < 0 ∧ are_fractional_parts_close_enough P a b = true) →
      hypergeometric_1f1_backward_recurrence_for_negative_a_anchor P a b
        = (b - 1, (modf a).2 - (⌈b⌉ - 1)))
    ∧ (¬ (a < b ∧ b < 0 ∧ are_fractional_parts_close_enough P a b = true) →
      hypergeometric_1f1_backward_recurrence_for_negative_a_anchor P a b = modf a) := by
  rcases hma : modf a with ⟨ak, ia⟩
  rcases hmb : modf b with ⟨bk, ib⟩
  unfold hypergeometric_1f1_backward_recurrence_for_negative_a_anchor
    are_fractional_parts_close_enough
  simp only [hma, hmb]
  constructor
  · rintro ⟨h1, h2, h3⟩
    rw [if_pos]
    simp only [Bool.and_eq_true, decide_eq_true_eq]
    exact ⟨⟨h1, h2⟩, by simpa using h3⟩
  · intro h
    rw [if_neg]
    intro hc
    simp only [Bool.and_eq_true, decide_eq_true_eq] at hc
    exact h ⟨hc.1.1, hc.1.2, by simpa using hc.2⟩

/-- The final call of the negative-`a` driver in terms of the anchored `ak`
and the step target. -/
theorem negative_a_window_eq_anchor (P : FloatPrimitives T) (E : T → T → T → T) (a b z : T) :
    hypergeometric_1f1_backward_recurrence_for_negative_a_window P E a b z
      = hypergeometric_1f1_recurrence_backward_window
          (hypergeometric_1f1_recurrence_a_coefficients
            ((hypergeometric_1f1_backward_recurrence_for_negative_a_anchor P a b).1 - 1) b z)
          (hypergeometric_1f1_backward_recurrence_for_negative_a_anchor P a b).2
          (some (E (hypergeometric_1f1_backward_recurrence_for_negative_a_anchor P a b).1 b z))
          (some (E ((hypergeometric_1f1_backward_recurrence_for_negative_a_anchor P a b).1 - 1)
            b z)) := by
  rcases hma : modf a with ⟨ak, ia⟩
  rcases hmb : modf b with ⟨bk, ib⟩
  unfold hypergeometric_1f1_backward_recurrence_for_negative_a_window
    hypergeometric_1f1_backward_recurrence_for_negative_a_anchor
  simp only [hma, hmb]

/-- Claim C1: for `a ≥ 0` and a base evaluator that satisfies the contiguous
relation `x * E (x+1) = (b - x) * E (x-1) + (2x - b + z) * E x` in its first
parameter, the positive-`a` driver returns `E a b z`; no divisor needs to be
assumed non-zero, every coefficient the walk divides by being at most `-1`. -/
theorem forward_recurrence_for_positive_a_correct (E : T → T → T → T) (a b z : T)
    (ha : 0 ≤ a)
    (hE : ∀ x : T, x * E (x + 1) b z = (b - x) * E (x - 1) b z + (2 * x - b + z) * E x b z) :
    hypergeometric_1f1_forward_recurrence_for_positive_a E a b z = some (E a b z)
    ∧ ∀ d ∈ (hypergeometric_1f1_forward_recurrence_for_positive_a_window E a b z).divisors,
        d ≤ -1 := by
  obtain ⟨n, hn⟩ := Int.eq_ofNat_of_zero_le (Int.floor_nonneg.2 ha)
  have hfrac : 0 ≤ a - (n : T) := by
    have := Int.floor_le a
    rw [hn] at this
    simpa using this
  have ha' : a - (n : T) + (n : T) = a := by ring
  unfold hypergeometric_1f1_forward_recurrence_for_positive_a
    hypergeometric_1f1_forward_recurrence_for_positive_a_window
  simp only [modf_of_nonneg a ha, hn, Int.cast_natCast]
  rw [forward_window_eq_iter]
  constructor
  · have h := (forward_iter_values
      (hypergeometric_1f1_recurrence_a_coefficients (a - (n : T) + 1) b z)
      (fun j => E (a - (n : T) + (j : T)) b z) n
      (Window.enter (some (E (a - (n : T)) b z)) (some (E (a - (n : T) + 1) b z)))
      (by simp [Window.enter]) (by simp [Window.enter]) ?_).1
    · rw [h, ha']
    · intro j _
      have hj : (0 : T) ≤ (j : T) := Nat.cast_nonneg j
      simp only [hypergeometric_1f1_recurrence_a_coefficients, Int.cast_natCast]
      refine ⟨by intro h0; linarith, ?_⟩
      have := hE (a - (n : T) + 1 + (j : T))
      have e1 : a - (n : T) + 1 + (j : T) + 1 = a - (n : T) + ((j + 2 : ℕ) : T) := by
        push_cast; ring
      have e2 : a - (n : T) + 1 + (j : T) - 1 = a - (n : T) + (j : T) := by ring
      have e3 : a - (n : T) + 1 + (j : T) = a - (n : T) + ((j + 1 : ℕ) : T) := by
        push_cast; ring
      rw [e1, e2] at this
      rw [← e3]
      linear_combination -this
  · intro d hd
    rw [forward_iter_divisors] at hd
    simp only [Window.enter, List.nil_append, List.mem_map, List.mem_range] at hd
    obtain ⟨j, _, rfl⟩ := hd
    have hj : (0 : T) ≤ (j : T) := Nat.cast_nonneg j
    simp only [hypergeometric_1f1_recurrence_a_coefficients, Int.cast_natCast]
    linarith

/-- Claim C2: for `a ≤ 0` on which the re-anchoring branch is not taken, with
`b ≠ a + j` for every integer `0 ≤ j < -trunc a`, and a base evaluator that
satisfies the contiguous relation
`(b - x) * E (x-1) = x * E (x+1) + (b - 2x - z) * E x` in its first parameter,
the negative-`a` driver returns `E a b z`. -/
theorem backward_recurrence_for_negative_a_correct (P : FloatPrimitives T)
    (E : T → T → T → T) (a b z : T) (ha : a ≤ 0)
    (hbranch : ¬ (a < b ∧ b < 0 ∧
      |P.float_distance (modf a).1 (modf b).1| ≤ (2 : T) ^ (max (P.frexp_exp a) (P.frexp_exp b))))
    (hb : ∀ j : ℤ, 0 ≤ j → j < -(modf a).2 → b ≠ a + (j : T))
    (hE : ∀ x : T, (b - x) * E (x - 1) b z = x * E (x + 1) b z + (b - 2 * x - z) * E x b z) :
    hypergeometric_1f1_backward_recurrence_for_negative_a P E a b z = some (E a b z) := by
  have hc0 : ⌈a⌉ ≤ 0 := Int.ceil_le.2 (by simpa using ha)
  obtain ⟨n, hn⟩ := Int.eq_ofNat_of_zero_le (neg_nonneg.2 hc0)
  have hc : ⌈a⌉ = -(n : ℤ) := by omega
  have hma : modf a = (a + (n : T), -(n : ℤ)) := by
    rw [modf_of_nonpos a ha, hc]; simp
  rw [hma] at hbranch hb
  simp only [neg_neg] at hb
  rcases hmb : modf b with ⟨bk, ib⟩
  rw [hmb] at hbranch
  have hcond : ((decide (a < b) && decide (b < 0)) &&
      decide (|P.float_distance (a + (n : T)) bk|
        ≤ (2 : T) ^ (max (P.frexp_exp a) (P.frexp_exp b)))) = false := by
    rw [Bool.eq_false_iff]
    intro h
    simp only [Bool.and_eq_true, decide_eq_true_eq] at h
    exact hbranch ⟨h.1.1, h.1.2, h.2⟩
  unfold hypergeometric_1f1_backward_recurrence_for_negative_a
    hypergeometric_1f1_backward_recurrence_for_negative_a_window
  simp only [hma, hmb, hcond, Bool.false_eq_true, if_false]
  rw [backward_window_eq_iter]
  have h := (backward_iter_values
    (hypergeometric_1f1_recurrence_a_coefficients (a + (n : T) - 1) b z)
    (fun j => E (a + (n : T) - (j : T)) b z) n
    (Window.enter (some (E (a + (n : T)) b z)) (some (E (a + (n : T) - 1) b z)))
    (by simp [Window.enter]) (by simp [Window.enter]) ?_).1
  · rw [h]; congr 2; ring
  · intro j hj
    simp only [hypergeometric_1f1_recurrence_a_coefficients, Int.cast_neg, Int.cast_natCast]
    constructor
    · intro h0
      refine hb ((n : ℤ) - 1 - (j : ℤ)) (by omega) (by omega) ?_
      push_cast
      linear_combination h0
    · have := hE (a + (n : T) - 1 + -(j : T))
      have e1 : a + (n : T) - 1 + -(j : T) - 1 = a + (n : T) - ((j + 2 : ℕ) : T) := by
        push_cast; ring
      have e2 : a + (n : T) - 1 + -(j : T) + 1 = a + (n : T) - (j : T) := by ring
      have e3 : a + (n : T) - 1 + -(j : T) = a + (n : T) - ((j + 1 : ℕ) : T) := by
        push_cast; ring
      rw [e1, e2] at this
      rw [← e3]
      linear_combination this

/-- Claim C3: for `b ≤ 0` and a base evaluator that satisfies the contiguous
relation `x (x-1) E (a, x-1) = x (z+x-1) E (a, x) - z (x-a) E (a, x+1)` in its
second parameter, the negative-`b` driver returns `E a b z`; no divisor needs
to be assumed non-zero, every coefficient the walk divides by being
positive. -/
theorem backward_recurrence_for_negative_b_correct (E : T → T → T → T) (a b z : T)
    (hb : b ≤ 0)
    (hE : ∀ x : T, x * (x - 1) * E a (x - 1) z
      = x * (z + x - 1) * E a x z - z * (x - a) * E a (x + 1) z) :
    hypergeometric_1f1_backward_recurrence_for_negative_b E a b z = some (E a b z)
    ∧ ∀ d ∈ (hypergeometric_1f1_backward_recurrence_for_negative_b_window E a b z).divisors,
        0 < d := by
  have hc0 : ⌈b⌉ ≤ 0 := Int.ceil_le.2 (by simpa using hb)
  obtain ⟨n, hn⟩ := Int.eq_ofNat_of_zero_le (neg_nonneg.2 hc0)
  have hc : ⌈b⌉ = -(n : ℤ) := by omega
  have hmb : modf b = (b + (n : T), -(n : ℤ)) := by
    rw [modf_of_nonpos b hb, hc]; simp
  have hfrac : b + (n : T) ≤ 0 := by
    have := Int.le_ceil b
    rw [hc] at this
    push_cast at this
    linarith
  unfold hypergeometric_1f1_backward_recurrence_for_negative_b
    hypergeometric_1f1_backward_recurrence_for_negative_b_window
  simp only [hmb]
  rw [backward_window_eq_iter]
  constructor
  · have h := (backward_iter_values
      (hypergeometric_1f1_recurrence_b_coefficients a (b + (n : T) - 1) z)
      (fun j => E a (b + (n : T) - (j : T)) z) n
      (Window.enter (some (E a (b + (n : T)) z)) (some (E a (b + (n : T) - 1) z)))
      (by simp [Window.enter]) (by simp [Window.enter]) ?_).1
    · rw [h]; congr 2; ring
    · intro j _
      have hj : (0 : T) ≤ (j : T) := Nat.cast_nonneg j
      simp only [hypergeometric_1f1_recurrence_b_coefficients, Int.cast_neg, Int.cast_natCast,
        Nat.cast_add, Nat.cast_ofNat, Nat.cast_one]
      constructor
      · apply ne_of_gt
        nlinarith
      · have := hE (b + (n : T) - 1 + -(j : T))
        have e1 : b + (n : T) - 1 + -(j : T) - 1 = b + (n : T) - ((j : T) + 2) := by ring
        have e2 : b + (n : T) - 1 + -(j : T) + 1 = b + (n : T) - (j : T) := by ring
        have e3 : b + (n : T) - 1 + -(j : T) = b + (n : T) - ((j : T) + 1) := by ring
        rw [e1, e2] at this
        rw [← e3]
        linear_combination this
  · intro d hd
    rw [backward_iter_divisors] at hd
    simp only [Window.enter, List.nil_append, List.mem_map, List.mem_range] at hd
    obtain ⟨j, _, rfl⟩ := hd
    have hj : (0 : T) ≤ (j : T) := Nat.cast_nonneg j
    simp only [hypergeometric_1f1_recurrence_b_coefficients, Int.cast_neg, Int.cast_natCast]
    nlinarith

/-- Claim C4: for `a`, `b` whose integer parts coincide and are not positive,
and a base evaluator that satisfies the joint contiguous relation
`y (1-y) E (x-1, y-1) = y ((1-y)+z) E (x, y) - x z E (x+1, y+1)`, the
negative-`a`-and-`b` driver returns `E a b z`. -/
theorem backward_recurrence_for_negative_a_and_b_correct (E : T → T → T → T) (a b z : T)
    (hab : (modf a).2 = (modf b).2) (hneg : (modf b).2 ≤ 0)
    (hE : ∀ x y : T, y * (1 - y) * E (x - 1) (y - 1) z
      = y * ((1 - y) + z) * E x y z - x * z * E (x + 1) (y + 1) z) :
    hypergeometric_1f1_backward_recurrence_for_negative_a_and_b E a b z = some (E a b z) := by
  obtain ⟨n, hn⟩ := Int.eq_ofNat_of_zero_le (neg_nonneg.2 hneg)
  have hib : (modf b).2 = -(n : ℤ) := by omega
  have hfb : (modf b).1 = b + (n : T) := by
    have : (modf b).1 = b - (((modf b).2 : ℤ) : T) := rfl
    rw [this, hib]; push_cast; ring
  have hfa : (modf a).1 = a + (n : T) := by
    have : (modf a).1 = a - (((modf a).2 : ℤ) : T) := rfl
    rw [this, hab, hib]; push_cast; ring
  have hma : modf a = (a + (n : T), -(n : ℤ)) := by
    rw [← hfa, ← hib, ← hab]
  have hmb : modf b = (b + (n : T), -(n : ℤ)) := by
    rw [← hfb, ← hib]
  have hfrac : 0 < n → b + (n : T) ≤ 0 := by
    intro hpos
    have := modf_snd_nonpos_frac b (by rw [hib]; omega)
    rwa [hfb] at this
  unfold hypergeometric_1f1_backward_recurrence_for_negative_a_and_b
    hypergeometric_1f1_backward_recurrence_for_negative_a_and_b_window
  simp only [hma, hmb]
  rw [backward_window_eq_iter]
  have h := (backward_iter_values
    (hypergeometric_1f1_recurrence_a_and_b_coefficients (a + (n : T) - 1) (b + (n : T) - 1) z)
    (fun j => E (a + (n : T) - (j : T)) (b + (n : T) - (j : T)) z) n
    (Window.enter (some (E (a + (n : T)) (b + (n : T)) z))
      (some (E (a + (n : T) - 1) (b + (n : T) - 1) z)))
    (by simp [Window.enter]) (by simp [Window.enter]) ?_).1
  · rw [h]; congr 2 <;> ring
  · intro j hjn
    have hj : (0 : T) ≤ (j : T) := Nat.cast_nonneg j
    have hfr := hfrac (by omega)
    simp only [hypergeometric_1f1_recurrence_a_and_b_coefficients, Int.cast_neg,
      Int.cast_natCast, Nat.cast_add, Nat.cast_ofNat, Nat.cast_one]
    constructor
    · apply ne_of_lt
      nlinarith
    · have := hE (a + (n : T) - 1 + -(j : T)) (b + (n : T) - 1 + -(j : T))
      have e1 : a + (n : T) - 1 + -(j : T) - 1 = a + (n : T) - ((j : T) + 2) := by ring
      have e2 : a + (n : T) - 1 + -(j : T) + 1 = a + (n : T) - (j : T) := by ring
      have e3 : a + (n : T) - 1 + -(j : T) = a + (n : T) - ((j : T) + 1) := by ring
      have e4 : b + (n : T) - 1 + -(j : T) - 1 = b + (n : T) - ((j : T) + 2) := by ring
      have e5 : b + (n : T) - 1 + -(j : T) + 1 = b + (n : T) - (j : T) := by ring
      have e6 : b + (n : T) - 1 + -(j : T) = b + (n : T) - ((j : T) + 1) := by ring
      rw [e1, e2, e4, e5] at this
      rw [← e3, ← e6]
      linear_combination this

/-- Claim C1 at a concrete input: `a = 5/2`, `b = 3`, `z = 0`, where the
constant evaluator `1` (the value of the Kummer function at `z = 0`) satisfies
the contiguous relation. -/
theorem forward_recurrence_for_positive_a_correct_witness :
    hypergeometric_1f1_forward_recurrence_for_positive_a (fun _ _ _ => (1 : ℚ)) (5 / 2) 3 0
        = some 1
    ∧ ∀ d ∈ (hypergeometric_1f1_forward_recurrence_for_positive_a_window
        (fun _ _ _ => (1 : ℚ)) (5 / 2) 3 0).divisors, d ≤ -1 :=
  forward_recurrence_for_positive_a_correct (fun _ _ _ => 1) (5 / 2) 3 0 (by norm_num)
    (by intro x; ring)

theorem modf_neg_123_tenths : modf (-123 / 10 : ℚ) = (-3 / 10, -12) := by
  have h : ⌈(-123 / 10 : ℚ)⌉ = -12 := by rw [Int.ceil_eq_iff]; norm_num
  rw [modf_of_nonpos _ (by norm_num), h]
  norm_num

theorem modf_neg_7_halves : modf (-7 / 2 : ℚ) = (-1 / 2, -3) := by
  have h : ⌈(-7 / 2 : ℚ)⌉ = -3 := by rw [Int.ceil_eq_iff]; norm_num
  rw [modf_of_nonpos _ (by norm_num), h]
  norm_num

theorem modf_neg_10_thirds : modf (-10 / 3 : ℚ) = (-1 / 3, -3) := by
  have h : ⌈(-10 / 3 : ℚ)⌉ = -3 := by rw [Int.ceil_eq_iff]; norm_num
  rw [modf_of_nonpos _ (by norm_num), h]
  norm_num

/-- Claim C2 at a concrete input: `a = -12.3`, `b = 4.7`, `z = 0`, the constant
evaluator `1`. -/
theorem backward_recurrence_for_negative_a_correct_witness :
    hypergeometric_1f1_backward_recurrence_for_negative_a
      (⟨fun _ => 0, fun x y => y - x⟩ : FloatPrimitives ℚ) (fun _ _ _ => 1)
        (-123 / 10) (47 / 10) 0 = some 1 :=
  backward_recurrence_for_negative_a_correct _ (fun _ _ _ => 1) (-123 / 10) (47 / 10) 0
    (by norm_num) (by rintro ⟨_, h, _⟩; norm_num at h)
    (by
      intro j _ h1 h
      rw [modf_neg_123_tenths] at h1
      have h2 : (j : ℚ) = 17 := by linarith
      have h3 : j = 17 := by exact_mod_cast h2
      omega)
    (by intro x; ring)

/-- Claim C3 at a concrete input: `a = 0`, `b = -7/2`, `z = 2`, the constant
evaluator `1` (the value of the Kummer function at `a = 0`). -/
theorem backward_recurrence_for_negative_b_correct_witness :
    hypergeometric_1f1_backward_recurrence_for_negative_b (fun _ _ _ => (1 : ℚ)) 0 (-7 / 2) 2
        = some 1
    ∧ ∀ d ∈ (hypergeometric_1f1_backward_recurrence_for_negative_b_window
        (fun _ _ _ => (1 : ℚ)) 0 (-7 / 2) 2).divisors, 0 < d :=
  backward_recurrence_for_negative_b_correct (fun _ _ _ => 1) 0 (-7 / 2) 2 (by norm_num)
    (by intro x; ring)

/-- Claim C4 at a concrete input: `a = -10/3`, `b = -7/2` (both of integer part
`-3`), `z = 0`, the constant evaluator `1`. -/
theorem backward_recurrence_for_negative_a_and_b_correct_witness :
    hypergeometric_1f1_backward_recurrence_for_negative_a_and_b (fun _ _ _ => (1 : ℚ))
      (-10 / 3) (-7 / 2) 0 = some 1 :=
  backward_recurrence_for_negative_a_and_b_correct (fun _ _ _ => 1) (-10 / 3) (-7 / 2) 0
    (by rw [modf_neg_10_thirds, modf_neg_7_halves])
    (by rw [modf_neg_7_halves]; decide)
    (by intro x y; ring)

theorem modf_neg_3_halves : modf (-3 / 2 : ℚ) = (-1 / 2, -1) := by
  have h : ⌈(-3 / 2 : ℚ)⌉ = -1 := by rw [Int.ceil_eq_iff]; norm_num
  rw [modf_of_nonpos _ (by norm_num), h]
  norm_num

theorem modf_neg_5_halves : modf (-5 / 2 : ℚ) = (-1 / 2, -2) := by
  have h : ⌈(-5 / 2 : ℚ)⌉ = -2 := by rw [Int.ceil_eq_iff]; norm_num
  rw [modf_of_nonpos _ (by norm_num), h]
  norm_num

theorem close_enough_neg_7_halves_neg_3_halves :
    are_fractional_parts_close_enough sample_primitives (-7 / 2) (-3 / 2) = true := by
  unfold are_fractional_parts_close_enough
  simp only [modf_neg_7_halves, modf_neg_3_halves, sample_primitives]
  norm_num

theorem close_enough_neg_5_halves_neg_7_halves :
    are_fractional_parts_close_enough sample_primitives (-5 / 2) (-7 / 2) = true := by
  unfold are_fractional_parts_close_enough
  simp only [modf_neg_5_halves, modf_neg_7_halves, sample_primitives]
  norm_num

theorem not_close_enough_of_nonneg (P : FloatPrimitives ℚ) (a b : ℚ) (hb : 0 ≤ b) :
    ¬ (a < b ∧ b < 0 ∧ are_fractional_parts_close_enough P a b = true) := by
  rintro ⟨_, h, _⟩
  exact absurd h (not_lt.2 hb)

/-- Claim C13: in the negative-`a` driver, when `a < b`, `b < 0` and the
fractional parts pass the closeness test, the final call has the seeds
`E (b-1) b z` and `E (b-2) b z` and the step target
`trunc a - (ceil b - 1)`; in every other case it has the seeds `E ak b z` and
`E (ak-1) b z` with `ak` the fractional part of `a`, and the step target
`trunc a`.  The family is anchored at the second seed in both cases. -/
theorem negative_a_seeds_and_target (P : FloatPrimitives T) (E : T → T → T → T) (a b z : T) :
    ((a < b ∧ b < 0 ∧ are_fractional_parts_close_enough P a b = true) →
      hypergeometric_1f1_backward_recurrence_for_negative_a_window P E a b z
        = hypergeometric_1f1_recurrence_backward_window
            (hypergeometric_1f1_recurrence_a_coefficients (b - 2) b z)
            ((modf a).2 - (⌈b⌉ - 1)) (some (E (b - 1) b z)) (some (E (b - 2) b z)))
    ∧ (¬ (a < b ∧ b < 0 ∧ are_fractional_parts_close_enough P a b = true) →
      hypergeometric_1f1_backward_recurrence_for_negative_a_window P E a b z
        = hypergeometric_1f1_recurrence_backward_window
            (hypergeometric_1f1_recurrence_a_coefficients ((modf a).1 - 1) b z)
            (modf a).2 (some (E (modf a).1 b z)) (some (E ((modf a).1 - 1) b z))) := by
  constructor
  · intro h
    rw [negative_a_window_eq_anchor, (negative_a_anchor_cases P a b).1 h]
    have e : b - 1 - 1 = b - 2 := by ring
    simp only [e]
  · intro h
    rw [negative_a_window_eq_anchor, (negative_a_anchor_cases P a b).2 h]

/-- Claim C13 at concrete inputs: `a = -7/2`, `b = -3/2` (re-anchored) and
`a = -12.3`, `b = 4.7` (ordinary), with `z = 2` and the evaluator
`E x b z = x`. -/
theorem negative_a_seeds_and_target_witness :
    hypergeometric_1f1_backward_recurrence_for_negative_a_window sample_primitives
        (fun x _ _ => x) (-7 / 2) (-3 / 2) 2
      = hypergeometric_1f1_recurrence_backward_window
          (hypergeometric_1f1_recurrence_a_coefficients ((-3 / 2 : ℚ) - 2) (-3 / 2) 2)
          ((modf (-7 / 2 : ℚ)).2 - (⌈(-3 / 2 : ℚ)⌉ - 1))
          (some ((-3 / 2 : ℚ) - 1)) (some ((-3 / 2 : ℚ) - 2))
    ∧ hypergeometric_1f1_backward_recurrence_for_negative_a_window sample_primitives
        (fun x _ _ => x) (-123 / 10) (47 / 10) 2
      = hypergeometric_1f1_recurrence_backward_window
          (hypergeometric_1f1_recurrence_a_coefficients ((modf (-123 / 10 : ℚ)).1 - 1) (47 / 10) 2)
          (modf (-123 / 10 : ℚ)).2
          (some (modf (-123 / 10 : ℚ)).1) (some ((modf (-123 / 10 : ℚ)).1 - 1)) :=
  ⟨(negative_a_seeds_and_target sample_primitives (fun x _ _ => x) (-7 / 2) (-3 / 2) 2).1
      ⟨by norm_num, by norm_num, close_enough_neg_7_halves_neg_3_halves⟩,
    (negative_a_seeds_and_target sample_primitives (fun x _ _ => x) (-123 / 10) (47 / 10) 2).2
      (not_close_enough_of_nonneg _ _ _ (by norm_num))⟩

/-- Claim C14, as stated, fails.  At `a = -5/2`, `b = -7/2` both parameters are
negative and the fractional parts (both `-1/2`) pass the closeness test, but
`a < b` does not hold: the ordinary path is taken and the anchored `ak` is the
fractional part `-1/2` of `a`, not `b - 1 = -9/2`. -/
theorem negative_a_anchor_both_negative_counterexample :
    (-5 / 2 : ℚ) < 0 ∧ (-7 / 2 : ℚ) < 0
    ∧ are_fractional_parts_close_enough sample_primitives (-5 / 2) (-7 / 2) = true
    ∧ (hypergeometric_1f1_backward_recurrence_for_negative_a_anchor sample_primitives
        (-5 / 2) (-7 / 2)).1 = -1 / 2
    ∧ (hypergeometric_1f1_backward_recurrence_for_negative_a_anchor sample_primitives
        (-5 / 2) (-7 / 2)).1 ≠ (-7 / 2 : ℚ) - 1 := by
  have h : hypergeometric_1f1_backward_recurrence_for_negative_a_anchor sample_primitives
      (-5 / 2) (-7 / 2) = modf (-5 / 2 : ℚ) :=
    (negative_a_anchor_cases sample_primitives (-5 / 2) (-7 / 2)).2
      (by rintro ⟨h, _, _⟩; norm_num at h)
  rw [h, modf_neg_5_halves]
  refine ⟨by norm_num, by norm_num, close_enough_neg_5_halves_neg_7_halves, rfl, by norm_num⟩

/-- Claim C14, amended: for all inputs to the negative-`a` driver with
`a < b < 0` whose fractional parts pass the closeness test, the re-anchoring
branch is taken and the anchored `ak` equals `b - 1`; for all other inputs the
ordinary path is taken and the anchored `ak` is the fractional part of `a`.
The anchored `ak` is the first parameter of the first seed of the driver. -/
theorem negative_a_anchor_reanchored_iff (P : FloatPrimitives T) (E : T → T → T → T)
    (a b z : T) :
    ((a < b ∧ b < 0 ∧ are_fractional_parts_close_enough P a b = true) →
      (hypergeometric_1f1_backward_recurrence_for_negative_a_anchor P a b).1 = b - 1)
    ∧ (¬ (a < b ∧ b < 0 ∧ are_fractional_parts_close_enough P a b = true) →
      (hypergeometric_1f1_backward_recurrence_for_negative_a_anchor P a b).1 = (modf a).1)
    ∧ hypergeometric_1f1_backward_recurrence_for_negative_a P E a b z
      = hypergeometric_1f1_recurrence_backward
          (hypergeometric_1f1_recurrence_a_coefficients
            ((hypergeometric_1f1_backward_recurrence_for_negative_a_anchor P a b).1 - 1) b z)
          (hypergeometric_1f1_backward_recurrence_for_negative_a_anchor P a b).2
          (some (E (hypergeometric_1f1_backward_recurrence_for_negative_a_anchor P a b).1 b z))
          (some (E ((hypergeometric_1f1_backward_recurrence_for_negative_a_anchor P a b).1 - 1)
            b z)) := by
  refine ⟨?_, ?_, ?_⟩
  · intro h
    rw [(negative_a_anchor_cases P a b).1 h]
  · intro h
    rw [(negative_a_anchor_cases P a b).2 h]
  · unfold hypergeometric_1f1_backward_recurrence_for_negative_a
      hypergeometric_1f1_recurrence_backward
    rw [negative_a_window_eq_anchor]

/-- Claim C14 (amended) at concrete inputs: `a = -7/2`, `b = -3/2` (re-anchored,
`ak = -5/2`) and `a = -5/2`, `b = -7/2` (ordinary, `ak` the fractional part of
`a`). -/
theorem negative_a_anchor_reanchored_iff_witness :
    (hypergeometric_1f1_backward_recurrence_for_negative_a_anchor sample_primitives
        (-7 / 2) (-3 / 2)).1 = (-3 / 2 : ℚ) - 1
    ∧ (hypergeometric_1f1_backward_recurrence_for_negative_a_anchor sample_primitives
        (-5 / 2) (-7 / 2)).1 = (modf (-5 / 2 : ℚ)).1 :=
  ⟨(negative_a_anchor_reanchored_iff sample_primitives (fun x _ _ => x) (-7 / 2) (-3 / 2) 2).1
      ⟨by norm_num, by norm_num, close_enough_neg_7_halves_neg_3_halves⟩,
    (negative_a_anchor_reanchored_iff sample_primitives (fun x _ _ => x) (-5 / 2) (-7 / 2)
      2).2.1 (by rintro ⟨h, _, _⟩; norm_num at h)⟩

theorem modf_5_halves : modf (5 / 2 : ℚ) = (1 / 2, 2) := by
  have h : ⌊(5 / 2 : ℚ)⌋ = 2 := by rw [Int.floor_eq_iff]; norm_num
  rw [modf_of_nonneg _ (by norm_num), h]
  norm_num

/-- Claim C15, as stated, fails.  At `a = 5/2`, `b = 3`, `z = 1` with the
evaluator `E x b z = x` the fractional remainder is `ak = 1/2` and the step
count is `2`; the driver returns `3/2`, while forward propagation along the
vary-`a` family constructed with `(ak, b, z)` from the same seeds returns
`-1/2`. -/
theorem positive_a_family_at_fraction_counterexample :
    hypergeometric_1f1_forward_recurrence_for_positive_a (fun x _ _ => x) (5 / 2 : ℚ) 3 1
        = some (3 / 2)
    ∧ hypergeometric_1f1_recurrence_forward
        (hypergeometric_1f1_recurrence_a_coefficients (modf (5 / 2 : ℚ)).1 3 1)
        (modf (5 / 2 : ℚ)).2
        (some ((fun x _ _ => x) (modf (5 / 2 : ℚ)).1 (3 : ℚ) (1 : ℚ)))
        (some ((fun x _ _ => x) ((modf (5 / 2 : ℚ)).1 + 1) (3 : ℚ) (1 : ℚ)))
      = some (-1 / 2)
    ∧ hypergeometric_1f1_forward_recurrence_for_positive_a (fun x _ _ => x) (5 / 2 : ℚ) 3 1
      ≠ hypergeometric_1f1_recurrence_forward
        (hypergeometric_1f1_recurrence_a_coefficients (modf (5 / 2 : ℚ)).1 3 1)
        (modf (5 / 2 : ℚ)).2
        (some ((fun x _ _ => x) (modf (5 / 2 : ℚ)).1 (3 : ℚ) (1 : ℚ)))
        (some ((fun x _ _ => x) ((modf (5 / 2 : ℚ)).1 + 1) (3 : ℚ) (1 : ℚ))) := by
  have h1 : hypergeometric_1f1_forward_recurrence_for_positive_a (fun x _ _ => x)
      (5 / 2 : ℚ) 3 1 = some (3 / 2) := by
    unfold hypergeometric_1f1_forward_recurrence_for_positive_a
      hypergeometric_1f1_forward_recurrence_for_positive_a_window
    simp only [modf_5_halves]
    rw [show (2 : ℤ) = ((2 : ℕ) : ℤ) from rfl, forward_window_eq_iter]
    simp [forward_iter, forward_body, Window.enter,
      hypergeometric_1f1_recurrence_a_coefficients, slotMul, slotSub, slotDiv]
    norm_num
  have h2 : hypergeometric_1f1_recurrence_forward
        (hypergeometric_1f1_recurrence_a_coefficients (modf (5 / 2 : ℚ)).1 3 1)
        (modf (5 / 2 : ℚ)).2
        (some ((fun x _ _ => x) (modf (5 / 2 : ℚ)).1 (3 : ℚ) (1 : ℚ)))
        (some ((fun x _ _ => x) ((modf (5 / 2 : ℚ)).1 + 1) (3 : ℚ) (1 : ℚ)))
      = some (-1 / 2) := by
    unfold hypergeometric_1f1_recurrence_forward
    simp only [modf_5_halves]
    rw [show (2 : ℤ) = ((2 : ℕ) : ℤ) from rfl, forward_window_eq_iter]
    simp [forward_iter, forward_body, Window.enter,
      hypergeometric_1f1_recurrence_a_coefficients, slotMul, slotSub, slotDiv]
    norm_num
  refine ⟨h1, h2, ?_⟩
  rw [h1, h2]
  intro h
  rw [Option.some.injEq] at h
  norm_num at h

/-- Claim C15, amended: for every `a`, `b`, `z` and base evaluator `E`, the
positive-`a` driver seeds at `(ak, b, z)` and `(ak+1, b, z)` and builds the
vary-`a` family anchored at `ak + 1`, the first parameter of the second seed,
where `ak` is the fractional remainder of `a`: its result equals
`hypergeometric_1f1_recurrence_forward` applied to the vary-`a` family
constructed with `(ak + 1, b, z)`, step count `trunc a`, `first = E ak b z` and
`second = E (ak+1) b z`. -/
theorem positive_a_driver_eq_forward (E : T → T → T → T) (a b z : T) :
    hypergeometric_1f1_forward_recurrence_for_positive_a E a b z
      = hypergeometric_1f1_recurrence_forward
          (hypergeometric_1f1_recurrence_a_coefficients ((modf a).1 + 1) b z) (modf a).2
          (some (E (modf a).1 b z)) (some (E ((modf a).1 + 1) b z)) := by
  rcases hma : modf a with ⟨ak, ia⟩
  unfold hypergeometric_1f1_forward_recurrence_for_positive_a
    hypergeometric_1f1_forward_recurrence_for_positive_a_window
    hypergeometric_1f1_recurrence_forward
  simp only [hma]

/-- Claim C16: every driver consults the base evaluator at exactly two
parameter points, one unit apart along the parameter walked, and its result
depends on the evaluator through those two values only.  The points are
`(ak, b, z)` and `(ak-1, b, z)` with the anchored `ak` for negative `a`;
`(ak, b, z)` and `(ak+1, b, z)` for positive `a`; `(a, bk, z)` and
`(a, bk-1, z)` for negative `b`; `(ak, bk, z)` and `(ak-1, bk-1, z)` for
negative `a` and `b`.  For each driver: the driver with its evaluator calls
recorded computes the same variables as the driver and has called the
evaluator at these two points, in this order, and nowhere else; the result of
the driver is the propagation applied to the two seed values; and two
evaluators that agree at the two seed points make the driver return the same
result. -/
theorem drivers_depend_on_seed_values_only (P : FloatPrimitives T) (E1 E2 : T → T → T → T)
    (a b z : T) :
    ((hypergeometric_1f1_backward_recurrence_for_negative_a_logged P E1 a b z).1
        = hypergeometric_1f1_backward_recurrence_for_negative_a_window P E1 a b z
      ∧ (hypergeometric_1f1_backward_recurrence_for_negative_a_logged P E1 a b z).2
        = [((hypergeometric_1f1_backward_recurrence_for_negative_a_anchor P a b).1, b, z), ((hypergeometric_1f1_backward_recurrence_for_negative_a_anchor P a b).1 - 1, b, z)]
      ∧ hypergeometric_1f1_backward_recurrence_for_negative_a P E1 a b z
        = hypergeometric_1f1_recurrence_backward
            (hypergeometric_1f1_recurrence_a_coefficients ((hypergeometric_1f1_backward_recurrence_for_negative_a_anchor P a b).1 - 1) b z) (hypergeometric_1f1_backward_recurrence_for_negative_a_anchor P a b).2
            (some (E1 (hypergeometric_1f1_backward_recurrence_for_negative_a_anchor P a b).1 b z)) (some (E1 ((hypergeometric_1f1_backward_recurrence_for_negative_a_anchor P a b).1 - 1) b z))
      ∧ (E1 (hypergeometric_1f1_backward_recurrence_for_negative_a_anchor P a b).1 b z = E2 (hypergeometric_1f1_backward_recurrence_for_negative_a_anchor P a b).1 b z →
        E1 ((hypergeometric_1f1_backward_recurrence_for_negative_a_anchor P a b).1 - 1) b z = E2 ((hypergeometric_1f1_backward_recurrence_for_negative_a_anchor P a b).1 - 1) b z →
        hypergeometric_1f1_backward_recurrence_for_negative_a P E1 a b z
          = hypergeometric_1f1_backward_recurrence_for_negative_a P E2 a b z))
    ∧ ((hypergeometric_1f1_forward_recurrence_for_positive_a_logged E1 a b z).1
        = hypergeometric_1f1_forward_recurrence_for_positive_a_window E1 a b z
      ∧ (hypergeometric_1f1_forward_recurrence_for_positive_a_logged E1 a b z).2
        = [((modf a).1, b, z), ((modf a).1 + 1, b, z)]
      ∧ hypergeometric_1f1_forward_recurrence_for_positive_a E1 a b z
        = hypergeometric_1f1_recurrence_forward
            (hypergeometric_1f1_recurrence_a_coefficients ((modf a).1 + 1) b z) (modf a).2
            (some (E1 (modf a).1 b z)) (some (E1 ((modf a).1 + 1) b z))
      ∧ (E1 (modf a).1 b z = E2 (modf a).1 b z →
        E1 ((modf a).1 + 1) b z = E2 ((modf a).1 + 1) b z →
        hypergeometric_1f1_forward_recurrence_for_positive_a E1 a b z
          = hypergeometric_1f1_forward_recurrence_for_positive_a E2 a b z))
    ∧ ((hypergeometric_1f1_backward_recurrence_for_negative_b_logged E1 a b z).1
        = hypergeometric_1f1_backward_recurrence_for_negative_b_window E1 a b z
      ∧ (hypergeometric_1f1_backward_recurrence_for_negative_b_logged E1 a b z).2
        = [(a, (modf b).1, z), (a, (modf b).1 - 1, z)]
      ∧ hypergeometric_1f1_backward_recurrence_for_negative_b E1 a b z
        = hypergeometric_1f1_recurrence_backward
            (hypergeometric_1f1_recurrence_b_coefficients a ((modf b).1 - 1) z) (modf b).2
            (some (E1 a (modf b).1 z)) (some (E1 a ((modf b).1 - 1) z))
      ∧ (E1 a (modf b).1 z = E2 a (modf b).1 z →
        E1 a ((modf b).1 - 1) z = E2 a ((modf b).1 - 1) z →
        hypergeometric_1f1_backward_recurrence_for_negative_b E1 a b z
          = hypergeometric_1f1_backward_recurrence_for_negative_b E2 a b z))
    ∧ ((hypergeometric_1f1_backward_recurrence_for_negative_a_and_b_logged E1 a b z).1
        = hypergeometric_1f1_backward_recurrence_for_negative_a_and_b_window E1 a b z
      ∧ (hypergeometric_1f1_backward_recurrence_for_negative_a_and_b_logged E1 a b z).2
        = [((modf a).1, (modf b).1, z), ((modf a).1 - 1, (modf b).1 - 1, z)]
      ∧ hypergeometric_1f1_backward_recurrence_for_negative_a_and_b E1 a b z
        = hypergeometric_1f1_recurrence_backward
            (hypergeometric_1f1_recurrence_a_and_b_coefficients
              ((modf a).1 - 1) ((modf b).1 - 1) z) (modf b).2
            (some (E1 (modf a).1 (modf b).1 z)) (some (E1 ((modf a).1 - 1) ((modf b).1 - 1) z))
      ∧ (E1 (modf a).1 (modf b).1 z = E2 (modf a).1 (modf b).1 z →
        E1 ((modf a).1 - 1) ((modf b).1 - 1) z = E2 ((modf a).1 - 1) ((modf b).1 - 1) z →
        hypergeometric_1f1_backward_recurrence_for_negative_a_and_b E1 a b z
          = hypergeometric_1f1_backward_recurrence_for_negative_a_and_b E2 a b z)) := by
  refine ⟨⟨?_, ?_, ?_, ?_⟩, ?_, ?_, ?_⟩
  · rcases hma : modf a with ⟨ak, ia⟩
    rcases hmb : modf b with ⟨bk, ib⟩
    unfold hypergeometric_1f1_backward_recurrence_for_negative_a_logged
      hypergeometric_1f1_backward_recurrence_for_negative_a_window
    simp only [hma, hmb, logged_call]
  · rcases hma : modf a with ⟨ak, ia⟩
    rcases hmb : modf b with ⟨bk, ib⟩
    unfold hypergeometric_1f1_backward_recurrence_for_negative_a_logged
      hypergeometric_1f1_backward_recurrence_for_negative_a_anchor
    simp only [hma, hmb, logged_call, List.nil_append, List.singleton_append]
  · unfold hypergeometric_1f1_backward_recurrence_for_negative_a
      hypergeometric_1f1_recurrence_backward
    rw [negative_a_window_eq_anchor]
  · intro h1 h2
    unfold hypergeometric_1f1_backward_recurrence_for_negative_a
    rw [negative_a_window_eq_anchor, negative_a_window_eq_anchor, h1, h2]
  · rcases hma : modf a with ⟨ak, ia⟩
    unfold hypergeometric_1f1_forward_recurrence_for_positive_a_logged
      hypergeometric_1f1_forward_recurrence_for_positive_a
      hypergeometric_1f1_forward_recurrence_for_positive_a_window
      hypergeometric_1f1_recurrence_forward
    simp only [hma, logged_call, List.nil_append, List.singleton_append, true_and]
    intro h1 h2
    rw [h1, h2]
  · rcases hmb : modf b with ⟨bk, ib⟩
    unfold hypergeometric_1f1_backward_recurrence_for_negative_b_logged
      hypergeometric_1f1_backward_recurrence_for_negative_b
      hypergeometric_1f1_backward_recurrence_for_negative_b_window
      hypergeometric_1f1_recurrence_backward
    simp only [hmb, logged_call, List.nil_append, List.singleton_append, true_and]
    intro h1 h2
    rw [h1, h2]
  · rcases hma : modf a with ⟨ak, ia⟩
    rcases hmb : modf b with ⟨bk, ib⟩
    unfold hypergeometric_1f1_backward_recurrence_for_negative_a_and_b_logged
      hypergeometric_1f1_backward_recurrence_for_negative_a_and_b
      hypergeometric_1f1_backward_recurrence_for_negative_a_and_b_window
      hypergeometric_1f1_recurrence_backward
    simp only [hma, hmb, logged_call, List.nil_append, List.singleton_append, true_and]
    intro h1 h2
    rw [h1, h2]

theorem anchor_neg_5_halves_3 :
    hypergeometric_1f1_backward_recurrence_for_negative_a_anchor sample_primitives (-5 / 2) 3
      = (-1 / 2, -2) := by
  rw [(negative_a_anchor_cases sample_primitives (-5 / 2) 3).2
    (not_close_enough_of_nonneg _ _ _ (by norm_num)), modf_neg_5_halves]

/-- Claim C16 at concrete inputs: the evaluator `x + y` and the evaluator that
agrees with it only where `-2 ≤ x ≤ 2` or `-2 ≤ y ≤ 2` (and is `0` elsewhere)
give the same result in each driver, at `a = -5/2, b = 3`; `a = 5/2, b = 3`;
`a = 7, b = -5/2`; `a = -5/2, b = -5/2`, with `z = 2`. -/
theorem drivers_depend_on_seed_values_only_witness :
    hypergeometric_1f1_backward_recurrence_for_negative_a sample_primitives
        (fun x y _ => x + y) (-5 / 2) 3 2
      = hypergeometric_1f1_backward_recurrence_for_negative_a sample_primitives
        (fun x y _ => if (-2 ≤ x ∧ x ≤ 2) ∨ (-2 ≤ y ∧ y ≤ 2) then x + y else 0) (-5 / 2) 3 2
    ∧ hypergeometric_1f1_forward_recurrence_for_positive_a
        (fun x y _ => x + y) (5 / 2 : ℚ) 3 2
      = hypergeometric_1f1_forward_recurrence_for_positive_a
        (fun x y _ => if (-2 ≤ x ∧ x ≤ 2) ∨ (-2 ≤ y ∧ y ≤ 2) then x + y else 0) (5 / 2 : ℚ) 3 2
    ∧ hypergeometric_1f1_backward_recurrence_for_negative_b
        (fun x y _ => x + y) (7 : ℚ) (-5 / 2) 2
      = hypergeometric_1f1_backward_recurrence_for_negative_b
        (fun x y _ => if (-2 ≤ x ∧ x ≤ 2) ∨ (-2 ≤ y ∧ y ≤ 2) then x + y else 0) (7 : ℚ) (-5 / 2) 2
    ∧ hypergeometric_1f1_backward_recurrence_for_negative_a_and_b
        (fun x y _ => x + y) (-5 / 2 : ℚ) (-5 / 2) 2
      = hypergeometric_1f1_backward_recurrence_for_negative_a_and_b
        (fun x y _ => if (-2 ≤ x ∧ x ≤ 2) ∨ (-2 ≤ y ∧ y ≤ 2) then x + y else 0)
          (-5 / 2 : ℚ) (-5 / 2) 2 :=
  ⟨(drivers_depend_on_seed_values_only sample_primitives (fun x y _ => x + y)
      (fun x y _ => if (-2 ≤ x ∧ x ≤ 2) ∨ (-2 ≤ y ∧ y ≤ 2) then x + y else 0) (-5 / 2) 3 2).1.2.2.2
      (by rw [anchor_neg_5_halves_3]; norm_num) (by rw [anchor_neg_5_halves_3]; norm_num),
    (drivers_depend_on_seed_values_only sample_primitives (fun x y _ => x + y)
      (fun x y _ => if (-2 ≤ x ∧ x ≤ 2) ∨ (-2 ≤ y ∧ y ≤ 2) then x + y else 0) (5 / 2) 3 2).2.1.2.2.2
      (by rw [modf_5_halves]; norm_num) (by rw [modf_5_halves]; norm_num),
    (drivers_depend_on_seed_values_only sample_primitives (fun x y _ => x + y)
      (fun x y _ => if (-2 ≤ x ∧ x ≤ 2) ∨ (-2 ≤ y ∧ y ≤ 2) then x + y else 0) 7 (-5 / 2)
      2).2.2.1.2.2.2
      (by rw [modf_neg_5_halves]; norm_num) (by rw [modf_neg_5_halves]; norm_num),
    (drivers_depend_on_seed_values_only sample_primitives (fun x y _ => x + y)
      (fun x y _ => if (-2 ≤ x ∧ x ≤ 2) ∨ (-2 ≤ y ∧ y ≤ 2) then x + y else 0) (-5 / 2) (-5 / 2)
      2).2.2.2.2.2.2
      (by rw [modf_neg_5_halves]; norm_num) (by rw [modf_neg_5_halves]; norm_num)⟩

/-- Claim C18: in the re-anchored branch of the negative-`a` driver (`a < b < 0`,
closeness test passed) with `trunc a < trunc b`, for every evaluator that
satisfies the contiguous relation in its first parameter the driver returns
`E (trunc a + frac b) b z` after `trunc b - trunc a - 1` backward steps; the
divisors met are `2, 3, ...` (at the step index `k` the divisor is `2 - k`),
all at least `2`; and the returned value is `E a b z` when the fractional
parts of `a` and `b` are equal. -/
theorem negative_a_reanchored_correct (P : FloatPrimitives T) (E : T → T → T → T)
    (a b z : T) (hab : a < b) (hb : b < 0)
    (hclose : are_fractional_parts_close_enough P a b = true)
    (htr : (modf a).2 < (modf b).2)
    (hE : ∀ x : T, (b - x) * E (x - 1) b z = x * E (x + 1) b z + (b - 2 * x - z) * E x b z) :
    hypergeometric_1f1_backward_recurrence_for_negative_a P E a b z
        = some (E (((modf a).2 : T) + (modf b).1) b z)
    ∧ (hypergeometric_1f1_backward_recurrence_for_negative_a_window P E a b z).visited.length
        = ((modf b).2 - (modf a).2 - 1).toNat
    ∧ (hypergeometric_1f1_backward_recurrence_for_negative_a_window P E a b z).divisors
        = (List.range ((modf b).2 - (modf a).2 - 1).toNat).map (fun j : ℕ => (2 : T) + (j : T))
    ∧ (∀ d ∈ (hypergeometric_1f1_backward_recurrence_for_negative_a_window P E a b z).divisors,
        2 ≤ d)
    ∧ ((modf a).1 = (modf b).1 →
        hypergeometric_1f1_backward_recurrence_for_negative_a P E a b z = some (E a b z)) := by
  have hmb : modf b = (b - (⌈b⌉ : T), ⌈b⌉) := modf_of_nonpos b (le_of_lt hb)
  have hfa : (modf a).1 = a - (((modf a).2 : ℤ) : T) := rfl
  rw [hmb] at htr ⊢
  simp only at htr ⊢
  obtain ⟨n, hn⟩ := Int.eq_ofNat_of_zero_le (show 0 ≤ ⌈b⌉ - (modf a).2 - 1 by omega)
  have hL : (modf a).2 - (⌈b⌉ - 1) = -(n : ℤ) := by omega
  have hw : hypergeometric_1f1_backward_recurrence_for_negative_a_window P E a b z
      = backward_iter (hypergeometric_1f1_recurrence_a_coefficients (b - 2) b z) 0 n
          (Window.enter (some (E (b - 1) b z)) (some (E (b - 2) b z))) := by
    rw [negative_a_window_eq_anchor, (negative_a_anchor_cases P a b).1 ⟨hab, hb, hclose⟩]
    have e : b - 1 - 1 = b - 2 := by ring
    simp only [e, hL]
    exact backward_window_eq_iter _ n _ _
  have hdiv : (hypergeometric_1f1_backward_recurrence_for_negative_a_window P E a b z).divisors
      = (List.range n).map (fun j : ℕ => (2 : T) + (j : T)) := by
    rw [hw, backward_iter_divisors]
    simp only [Window.enter, List.nil_append]
    apply List.map_congr_left
    intro j _
    simp only [hypergeometric_1f1_recurrence_a_coefficients, Int.cast_neg, Int.cast_natCast]
    ring
  have hret : hypergeometric_1f1_backward_recurrence_for_negative_a P E a b z
      = some (E (((modf a).2 : T) + (b - (⌈b⌉ : T))) b z) := by
    unfold hypergeometric_1f1_backward_recurrence_for_negative_a
    rw [hw]
    have h := (backward_iter_values
      (hypergeometric_1f1_recurrence_a_coefficients (b - 2) b z)
      (fun j => E (b - 1 - (j : T)) b z) n
      (Window.enter (some (E (b - 1) b z)) (some (E (b - 2) b z)))
      (by simp [Window.enter]) (by simp [Window.enter]; congr 1; ring) ?_).1
    · rw [h]
      have hn' : (n : T) = (⌈b⌉ : T) - (((modf a).2 : ℤ) : T) - 1 := by
        have := congrArg (fun k : ℤ => (k : T)) hn
        simp only [Int.cast_sub, Int.cast_one, Int.cast_natCast] at this
        exact this.symm
      congr 2
      rw [hn']
      ring
    · intro j _
      have hj : (0 : T) ≤ (j : T) := Nat.cast_nonneg j
      simp only [hypergeometric_1f1_recurrence_a_coefficients, Int.cast_neg, Int.cast_natCast,
        Nat.cast_add, Nat.cast_ofNat, Nat.cast_one]
      constructor
      · intro h0
        linarith
      · have := hE (b - 2 + -(j : T))
        have e1 : b - 2 + -(j : T) - 1 = b - 1 - ((j : T) + 2) := by ring
        have e2 : b - 2 + -(j : T) + 1 = b - 1 - (j : T) := by ring
        have e3 : b - 2 + -(j : T) = b - 1 - ((j : T) + 1) := by ring
        rw [e1, e2] at this
        rw [← e3]
        linear_combination this
  refine ⟨hret, ?_, ?_, ?_, ?_⟩
  · rw [hw, backward_iter_visited, hn]
    simp only [Window.enter, List.nil_append, List.length_map, List.length_range,
      Int.toNat_natCast]
  · rw [hdiv, hn, Int.toNat_natCast]
  · intro d hd
    rw [hdiv] at hd
    simp only [List.mem_map, List.mem_range] at hd
    obtain ⟨j, _, rfl⟩ := hd
    have hj : (0 : T) ≤ (j : T) := Nat.cast_nonneg j
    linarith
  · intro hfrac
    rw [hret, ← hfrac, hfa]
    congr 2
    ring

/-- Claim C18 at a concrete input: `a = -7/2`, `b = -3/2` (fractional parts both
`-1/2`, integer parts `-3 < -1`), `z = 0`, the constant evaluator `1`. -/
theorem negative_a_reanchored_correct_witness :
    hypergeometric_1f1_backward_recurrence_for_negative_a sample_primitives
        (fun _ _ _ => 1) (-7 / 2) (-3 / 2) 0
        = some ((fun _ _ _ => (1 : ℚ))
            (((modf (-7 / 2 : ℚ)).2 : ℚ) + (modf (-3 / 2 : ℚ)).1) (-3 / 2 : ℚ) (0 : ℚ))
    ∧ (hypergeometric_1f1_backward_recurrence_for_negative_a_window sample_primitives
        (fun _ _ _ => 1) (-7 / 2) (-3 / 2) 0).visited.length
        = ((modf (-3 / 2 : ℚ)).2 - (modf (-7 / 2 : ℚ)).2 - 1).toNat
    ∧ (hypergeometric_1f1_backward_recurrence_for_negative_a_window sample_primitives
        (fun _ _ _ => 1) (-7 / 2) (-3 / 2) 0).divisors
        = (List.range ((modf (-3 / 2 : ℚ)).2 - (modf (-7 / 2 : ℚ)).2 - 1).toNat).map
            (fun j : ℕ => (2 : ℚ) + (j : ℚ))
    ∧ (∀ d ∈ (hypergeometric_1f1_backward_recurrence_for_negative_a_window sample_primitives
        (fun _ _ _ => 1) (-7 / 2) (-3 / 2) 0).divisors, 2 ≤ d)
    ∧ ((modf (-7 / 2 : ℚ)).1 = (modf (-3 / 2 : ℚ)).1 →
        hypergeometric_1f1_backward_recurrence_for_negative_a sample_primitives
          (fun _ _ _ => 1) (-7 / 2) (-3 / 2) 0
          = some ((fun _ _ _ => (1 : ℚ)) (-7 / 2 : ℚ) (-3 / 2 : ℚ) (0 : ℚ))) :=
  negative_a_reanchored_correct sample_primitives (fun _ _ _ => 1) (-7 / 2) (-3 / 2) 0
    (by norm_num) (by norm_num) close_enough_neg_7_halves_neg_3_halves
    (by rw [modf_neg_7_halves, modf_neg_3_halves]; decide)
    (by intro x; ring)

/-- Claim C19: on the ordinary path of the negative-`a` driver with `a ≤ -1`
and `n = -trunc a`, the divisors met by the backward walk are, in this order,
`b - a - j` for `j = n-1, n-2, ..., 0`; hence some division of the walk is a
division by zero if and only if `b - a` is an integer with
`0 ≤ b - a ≤ n - 1`. -/
theorem negative_a_ordinary_divisors (P : FloatPrimitives T) (E : T → T → T → T)
    (a b z : T) (ha : a ≤ -1)
    (hord : ¬ (a < b ∧ b < 0 ∧ are_fractional_parts_close_enough P a b = true)) :
    (hypergeometric_1f1_backward_recurrence_for_negative_a_window P E a b z).divisors
        = (List.range (-(modf a).2).toNat).reverse.map (fun j : ℕ => b - a - (j : T))
    ∧ ((∃ d ∈ (hypergeometric_1f1_backward_recurrence_for_negative_a_window P E a b
          z).divisors, d = 0)
        ↔ ∃ j : ℤ, 0 ≤ j ∧ j ≤ -(modf a).2 - 1 ∧ b - a = (j : T)) := by
  have ha0 : a ≤ 0 := le_trans ha (by norm_num)
  have hc0 : ⌈a⌉ ≤ 0 := Int.ceil_le.2 (by simpa using ha0)
  obtain ⟨n, hn⟩ := Int.eq_ofNat_of_zero_le (neg_nonneg.2 hc0)
  have hc : ⌈a⌉ = -(n : ℤ) := by omega
  have hma : modf a = (a + (n : T), -(n : ℤ)) := by
    rw [modf_of_nonpos a ha0, hc]; simp
  have hdiv : (hypergeometric_1f1_backward_recurrence_for_negative_a_window P E a b z).divisors
      = (List.range n).reverse.map (fun j : ℕ => b - a - (j : T)) := by
    rw [negative_a_window_eq_anchor, (negative_a_anchor_cases P a b).2 hord, hma]
    simp only
    rw [backward_window_eq_iter, backward_iter_divisors, List.range_eq_range',
      List.reverse_range', ← List.range_eq_range', List.map_map]
    simp only [Window.enter, List.nil_append]
    apply List.map_congr_left
    intro i hi
    have hi' : i < n := List.mem_range.1 hi
    have hcast : ((0 + n - 1 - i : ℕ) : T) = (n : T) - 1 - (i : T) := by
      have e : 0 + n - 1 - i = n - (1 + i) := by omega
      rw [e, Nat.cast_sub (by omega)]
      push_cast
      ring
    simp only [Function.comp, hypergeometric_1f1_recurrence_a_coefficients, Int.cast_neg,
      Int.cast_natCast, hcast]
    ring
  rw [hdiv, hma]
  simp only [neg_neg, Int.toNat_natCast, true_and]
  constructor
  · rintro ⟨d, hd, hd0⟩
    simp only [List.mem_map, List.mem_reverse, List.mem_range] at hd
    obtain ⟨j, hj, rfl⟩ := hd
    refine ⟨(j : ℤ), by omega, by omega, ?_⟩
    push_cast
    linear_combination hd0
  · rintro ⟨j, hj0, hjn, hj⟩
    obtain ⟨m, rfl⟩ := Int.eq_ofNat_of_zero_le hj0
    refine ⟨b - a - (m : T), ?_, ?_⟩
    · simp only [List.mem_map, List.mem_reverse, List.mem_range]
      exact ⟨m, by omega, rfl⟩
    · rw [hj]
      push_cast
      ring

/-- Claim C19 at a concrete input: `a = b = -7/2` (ordinary path, `n = 3`),
`z = 2`, the evaluator `E x b z = x`; here the last divisor met is zero. -/
theorem negative_a_ordinary_divisors_witness :
    (hypergeometric_1f1_backward_recurrence_for_negative_a_window sample_primitives
        (fun x _ _ => x) (-7 / 2) (-7 / 2) 2).divisors
        = (List.range (-(modf (-7 / 2 : ℚ)).2).toNat).reverse.map
            (fun j : ℕ => (-7 / 2 : ℚ) - (-7 / 2) - (j : ℚ))
    ∧ ((∃ d ∈ (hypergeometric_1f1_backward_recurrence_for_negative_a_window sample_primitives
          (fun x _ _ => x) (-7 / 2) (-7 / 2) 2).divisors, d = 0)
        ↔ ∃ j : ℤ, 0 ≤ j ∧ j ≤ -(modf (-7 / 2 : ℚ)).2 - 1
            ∧ (-7 / 2 : ℚ) - (-7 / 2) = (j : ℚ)) :=
  negative_a_ordinary_divisors sample_primitives (fun x _ _ => x) (-7 / 2) (-7 / 2) 2
    (by norm_num) (by rintro ⟨h, _, _⟩; exact absurd h (lt_irrefl _))

end Drivers

/-! ## The regime threshold -/

/-- Claim C17: `hypergeometric_1f1_is_a_small_enough a` is true if and only if
`a < -10`; it is true at `-10.0001`, false at `-9.9999` and false at `-10`. -/
theorem is_a_small_enough_iff {T : Type} [LinearOrderedField T] (a : T) :
    (hypergeometric_1f1_is_a_small_enough a = true ↔ a < -10)
    ∧ hypergeometric_1f1_is_a_small_enough (-100001 / 10000 : T) = true
    ∧ hypergeometric_1f1_is_a_small_enough (-99999 / 10000 : T) = false
    ∧ hypergeometric_1f1_is_a_small_enough (-10 : T) = false := by
  unfold hypergeometric_1f1_is_a_small_enough
  refine ⟨by simp, ?_, ?_, ?_⟩
  · rw [decide_eq_true_eq]; norm_num
  · rw [decide_eq_false_iff_not]; norm_num
  · rw [decide_eq_false_iff_not]; norm_num

end Hyp1F1
